import Mathlib

/-!
# Verification of `vgrudenic/embedded`

A shallow embedding of the stack-painting utility (`src/StackPainting/stack_painting.c`),
of the contiguous ring buffer described by the specification, and of the threaded
producer/consumer test (`src/ContiguousBuffer/test/TEST_Threading.cpp`), with the
properties claimed about them.

Machine integers are natural numbers reduced modulo `2 ^ 32` where the source uses
`uint32_t`; loops are recursive functions with an argument that bounds the number of
iterations, and the theorems show that the bound given is enough.
-/

/-! # Stack painting (`src/StackPainting/stack_painting.c`) -/

namespace StackPainting

/-- Modulus of `uint32_t` arithmetic. -/
def U32 : Nat := 2 ^ 32

/-- The value used as paint: `const uint32_t PAINT_VALUE = 0xC5C5C5C5`. -/
def PAINT_VALUE : Nat := 0xC5C5C5C5

/-- Memory as seen through `bottom_of_stack[i]`: the word `i` words above `_sstack`. -/
abbrev Memory := Nat → Nat

/-- The two file-scope statics `total_stack_size` and `used_stack_size`. -/
structure Statics where
  total_stack_size : Nat
  used_stack_size : Nat
deriving DecidableEq, Repr

/-- Both statics are initialised to `0`. -/
def Statics.init : Statics := { total_stack_size := 0, used_stack_size := 0 }

/-- The `area_to_paint` of `paint_stack`: `(application - (uint32_t)bottom_of_stack) / 4`
in `uint32_t` arithmetic, where `application = __get_MSP()` and
`bottom_of_stack = &_sstack` (both taken as parameters). -/
def area_to_paint (msp sstack : Nat) : Nat :=
  ((msp % U32 + U32 - sstack % U32) % U32) / 4

/-- The loop `for (i = 0; i < area_to_paint; i++) bottom_of_stack[i] = PAINT_VALUE;`
started at counter `i`; the first argument bounds the number of iterations. -/
def paint_loop (area : Nat) : Nat → Memory → Nat → Memory
  | 0, mem, _ => mem
  | fuel + 1, mem, i =>
    if i < area then paint_loop area fuel (Function.update mem i PAINT_VALUE) (i + 1)
    else mem

/-- The function `paint_stack`: paints `area_to_paint` words upward from `_sstack`. -/
def paint_stack (msp sstack : Nat) (mem : Memory) : Memory :=
  paint_loop (area_to_paint msp sstack) (area_to_paint msp sstack) mem 0

/-- The loop of `get_used_stack`,
`for (i = 1; i < area_to_search; ++i) { if (bottom_of_stack[i] != PAINT_VALUE) break; }`,
started at counter `i`; it returns the final value of `i`. The first argument bounds the
number of iterations. -/
def scan_loop (mem : Memory) (area : Nat) : Nat → Nat → Nat
  | 0, i => i
  | fuel + 1, i =>
    if i < area then
      if mem i ≠ PAINT_VALUE then i else scan_loop mem area fuel (i + 1)
    else i

/-- The function `get_used_stack`. The parameter `area` is the pointer difference
`&_estack - &_sstack` (a link-time constant), stored into the `uint32_t`
`area_to_search`. Returns the updated statics and the returned value. -/
def get_used_stack (area : Nat) (mem : Memory) (_st : Statics) : Statics × Nat :=
  let area_to_search := area % U32
  let i := scan_loop mem area_to_search area_to_search 1
  let total := (area_to_search * 4) % U32
  let used := (total + U32 - (i * 4) % U32) % U32
  ({ total_stack_size := total, used_stack_size := used }, used)

/-- The function `get_total_stack`: calls `get_used_stack` when the cached total is `0`. -/
def get_total_stack (area : Nat) (mem : Memory) (st : Statics) : Statics × Nat :=
  let st1 := if st.total_stack_size = 0 then (get_used_stack area mem st).1 else st
  (st1, st1.total_stack_size)

/-- Values of the statics that some sequence of calls of `get_used_stack` and
`get_total_stack` (with any stack content at each call) can produce. -/
inductive Statics.Reachable (area : Nat) : Statics → Prop
  | init : Statics.Reachable area Statics.init
  | used (mem : Memory) (st : Statics) :
      Statics.Reachable area st → Statics.Reachable area (get_used_stack area mem st).1
  | total (mem : Memory) (st : Statics) :
      Statics.Reachable area st → Statics.Reachable area (get_total_stack area mem st).1

/-- The quantity the specification describes: the number of consecutive words, counted from
the top of the stack (index `area - 1`) downward, that do not hold `PAINT_VALUE`. -/
def topRun (mem : Memory) : Nat → Nat
  | 0 => 0
  | a + 1 => if mem a ≠ PAINT_VALUE then topRun mem a + 1 else 0

/-- A sample stack of four words: paint at indices 0 and 2, used words at 1 and 3. -/
def sampleStack : Memory := fun i => if i = 1 ∨ i = 3 then 0 else PAINT_VALUE

end StackPainting

/-! # Contiguous ring buffer (specification §3 and §4.1) -/

namespace ContiguousRingbuffer

/-- Modelled from the spec: the class `ContiguousRingbuffer<T>` of `ContiguousRingbuffer.hpp`
is not among the sources (only its threading test is), so the data model is the one of
specification §3, with `T = int` as in the test: the usable `capacity`, the backing `storage`
of `capacity + 1` slots, the two indices and the `initialized` flag. -/
structure RingBuffer where
  capacity : Nat
  storage : List Int
  writeIndex : Nat
  readIndex : Nat
  initialized : Bool
deriving DecidableEq, Repr

/-- Modelled from the spec: `ContiguousRingbuffer.hpp` is missing; "the buffer is constructed
empty and uninitialized (capacity 0)". -/
def RingBuffer.unused : RingBuffer :=
  { capacity := 0, storage := [], writeIndex := 0, readIndex := 0, initialized := false }

/-- Modelled from the spec: `ContiguousRingbuffer.hpp` is missing; the invariants of §3 on an
initialized buffer: `capacity ≥ 1`, `capacity + 1` slots, both indices below `capacity + 1`. -/
def RingBuffer.Valid (b : RingBuffer) : Prop :=
  b.initialized = true ∧ 1 ≤ b.capacity ∧ b.storage.length = b.capacity + 1 ∧
  b.writeIndex < b.capacity + 1 ∧ b.readIndex < b.capacity + 1

instance (b : RingBuffer) : Decidable b.Valid := by
  unfold RingBuffer.Valid; infer_instance

/-- Modelled from the spec: `ContiguousRingbuffer.hpp` is missing; "number of elements
currently holding valid, unconsumed data =
`(writeIndex - readIndex + capacity + 1) mod (capacity + 1)`". -/
def resident (b : RingBuffer) : Nat :=
  (b.writeIndex + b.capacity + 1 - b.readIndex) % (b.capacity + 1)

/-- Modelled from the spec: `ContiguousRingbuffer.hpp` is missing; the slots holding unread
data are the `resident` slots that follow `readIndex` cyclically. -/
def holdsUnread (b : RingBuffer) (slot : Nat) : Prop :=
  ∃ k, k < resident b ∧ slot = (b.readIndex + k) % (b.capacity + 1)

instance (b : RingBuffer) (slot : Nat) : Decidable (holdsUnread b slot) := by
  unfold holdsUnread; infer_instance

/-- Modelled from the spec: `ContiguousRingbuffer.hpp` is missing; `Resize(capacity)`
"releases any previous storage, allocates `capacity + 1` slots, resets
`writeIndex = readIndex = 0`. Returns `true` on success; returns `false` and leaves the buffer
uninitialized if `capacity == 0` or allocation fails". The outcome of the allocation is the
parameter `allocOk`. -/
def Resize (_b : RingBuffer) (capacity : Nat) (allocOk : Bool) : RingBuffer × Bool :=
  if capacity = 0 ∨ allocOk = false then (RingBuffer.unused, false)
  else
    ({ capacity := capacity, storage := List.replicate (capacity + 1) 0,
       writeIndex := 0, readIndex := 0, initialized := true }, true)

/-- Modelled from the spec: `ContiguousRingbuffer.hpp` is missing; "the contiguous run of free
slots starting at `writeIndex`, bounded by both (a) the physical end of the storage array and
(b) the current `readIndex`": the straight run before the physical end, or the free count
(`capacity` minus the resident elements) when that is shorter. -/
def freeRun (b : RingBuffer) : Nat :=
  min (b.capacity + 1 - b.writeIndex) (b.capacity - resident b)

/-- Modelled from the spec: `ContiguousRingbuffer.hpp` is missing; "the contiguous run of
occupied (unread) slots starting at `readIndex`, bounded by the physical array end and by
`writeIndex`". -/
def occupiedRun (b : RingBuffer) : Nat :=
  min (b.capacity + 1 - b.readIndex) (resident b)

/-- Modelled from the spec: `ContiguousRingbuffer.hpp` is missing; `Poke(requestedCount)`
fails without side effects when the contiguous free run is shorter than `requestedCount`
(and, §9, for `requestedCount = 0` and on an unusable buffer); on success it returns the
slot index `writeIndex` (the pointer to `storage[writeIndex]`) and the run length. No index
is advanced. -/
def Poke (b : RingBuffer) (requestedCount : Nat) : RingBuffer × Option (Nat × Nat) :=
  if b.initialized = true ∧ 1 ≤ requestedCount ∧ requestedCount ≤ freeRun b then
    (b, some (b.writeIndex, freeRun b))
  else (b, none)

/-- Modelled from the spec: `ContiguousRingbuffer.hpp` is missing; `Write(count)` "advances
`writeIndex` by `count` modulo `capacity + 1`" and returns `true`; on an unusable buffer it
returns `false` and changes nothing. -/
def Write (b : RingBuffer) (count : Nat) : RingBuffer × Bool :=
  if b.initialized = true then
    ({ b with writeIndex := (b.writeIndex + count) % (b.capacity + 1) }, true)
  else (b, false)

/-- Modelled from the spec: `ContiguousRingbuffer.hpp` is missing; `Peek(requestedCount)` is
"symmetric to `Poke`": it fails when the contiguous occupied run is shorter than
`requestedCount`, and on success returns the slot index `readIndex` and the run length. -/
def Peek (b : RingBuffer) (requestedCount : Nat) : RingBuffer × Option (Nat × Nat) :=
  if b.initialized = true ∧ 1 ≤ requestedCount ∧ requestedCount ≤ occupiedRun b then
    (b, some (b.readIndex, occupiedRun b))
  else (b, none)

/-- Modelled from the spec: `ContiguousRingbuffer.hpp` is missing; `Read(count)` "advances
`readIndex` by `count` modulo `capacity + 1`" and returns `true`; on an unusable buffer it
returns `false` and changes nothing. -/
def Read (b : RingBuffer) (count : Nat) : RingBuffer × Bool :=
  if b.initialized = true then
    ({ b with readIndex := (b.readIndex + count) % (b.capacity + 1) }, true)
  else (b, false)

/-- One call of the data-path interface. -/
inductive Op where
  | poke (requestedCount : Nat)
  | write (count : Nat)
  | peek (requestedCount : Nat)
  | read (count : Nat)
deriving DecidableEq, Repr

/-- A buffer in use under the contract of specification §4.1. `reserved` is what is left of
the `availableCount` returned by the most recent successful `Poke` (every `Write` uses up its
`count`: the caller "must not write past the returned length"), `granted` the same for `Peek`
and `Read`. `written` and `consumed` count the elements committed by `Write` and released by
`Read` so far, so that `written - consumed` is the number of unread elements. -/
structure Session where
  buf : RingBuffer
  reserved : Option Nat
  granted : Option Nat
  written : Nat
  consumed : Nat
deriving DecidableEq, Repr

/-- One call obeying the contract: `Write(count)` needs a preceding successful `Poke` and
`count` at most what is left of its `availableCount`; `Read(count)` likewise with `Peek`.
A call breaking the contract gives `none`. -/
def Session.step (σ : Session) : Op → Option Session
  | Op.poke n =>
    match Poke σ.buf n with
    | (b, some (_, avail)) => some { σ with buf := b, reserved := some avail }
    | (b, none) => some { σ with buf := b }
  | Op.write count =>
    match σ.reserved with
    | some left =>
      if count ≤ left then
        match Write σ.buf count with
        | (b, true) =>
          some { σ with buf := b, reserved := some (left - count),
                        written := σ.written + count }
        | (b, false) => some { σ with buf := b }
      else none
    | none => none
  | Op.peek n =>
    match Peek σ.buf n with
    | (b, some (_, avail)) => some { σ with buf := b, granted := some avail }
    | (b, none) => some { σ with buf := b }
  | Op.read count =>
    match σ.granted with
    | some left =>
      if count ≤ left then
        match Read σ.buf count with
        | (b, true) =>
          some { σ with buf := b, granted := some (left - count),
                        consumed := σ.consumed + count }
        | (b, false) => some { σ with buf := b }
      else none
    | none => none

/-- A sequence of calls obeying the contract. -/
def Session.run (σ : Session) : List Op → Option Session
  | [] => some σ
  | op :: ops =>
    match σ.step op with
    | some σ1 => σ1.run ops
    | none => none

/-- The session that starts with a successful `Resize(capacity)` on any prior buffer:
nothing reserved, nothing written, nothing read. -/
def Session.start (prior : RingBuffer) (capacity : Nat) : Session :=
  { buf := (Resize prior capacity true).1, reserved := none, granted := none,
    written := 0, consumed := 0 }

/-- What holds of a session on a buffer of the given capacity: the buffer is valid, the two
indices are the element counts modulo `capacity + 1`, no more has been read than written and
at most `capacity` elements are unread, and what is left of a reservation still lies before
the physical end of the storage and within the free (for `Poke`) or unread (for `Peek`)
slots. -/
def Session.Sound (capacity : Nat) (σ : Session) : Prop :=
  σ.buf.Valid ∧ σ.buf.capacity = capacity ∧
  σ.buf.writeIndex = σ.written % (capacity + 1) ∧
  σ.buf.readIndex = σ.consumed % (capacity + 1) ∧
  σ.consumed ≤ σ.written ∧ σ.written ≤ σ.consumed + capacity ∧
  (∀ left, σ.reserved = some left →
    σ.buf.writeIndex + left ≤ capacity + 1 ∧ σ.written + left ≤ σ.consumed + capacity) ∧
  (∀ left, σ.granted = some left →
    σ.buf.readIndex + left ≤ capacity + 1 ∧ σ.consumed + left ≤ σ.written)

/-- The session after `Poke(4)`, `Write(4)`, `Peek(1)`, `Read(1)`, `Poke(12)`, `Write(12)`
on a fresh buffer of capacity 15: 16 elements written, 1 read, the write index has wrapped
to 0 and the buffer is full. -/
def sampleSession : Session :=
  { buf := { capacity := 15, storage := List.replicate 16 0, writeIndex := 0, readIndex := 1,
             initialized := true },
    reserved := some 0, granted := some 3, written := 16, consumed := 1 }

end ContiguousRingbuffer

/-! # The threading test (`src/ContiguousBuffer/test/TEST_Threading.cpp`) -/

namespace ThreadingTest

open ContiguousRingbuffer

/-- Where a thread stands in `Producer` / `Consumer`: at the top of the `do ... while` retry
loop (about to call `Poke` / `Peek`), inside the inner `for (j ...)` copy loop (whose exit
calls `Write` / `Read`), or past the outer `for` loop. -/
inductive Phase where
  | attempt
  | copy
  | done
deriving DecidableEq, Repr

/-- The locals of `Producer` / `Consumer`: the outer index `i`, the pointer
`data_prod` / `data_cons` (as a slot index of the storage), and the inner `k` and `j`. -/
structure Worker where
  i : Nat
  phase : Phase
  data : Nat
  k : Nat
  j : Nat
deriving DecidableEq, Repr

/-- The globals of the test (`ringBuff`, `measArr`) and the locals of the two threads. -/
structure System where
  ringBuff : RingBuffer
  measArr : List Int
  prod : Worker
  cons : Worker
deriving DecidableEq, Repr

/-- A thread entering its outer loop `for (size_t i = 0; i < NR_ITEMS_THREAD_TEST; ...)`. -/
def Worker.start (nrItemsThreadTest : Nat) : Worker :=
  { i := 0, phase := if 0 < nrItemsThreadTest then Phase.attempt else Phase.done,
    data := 0, k := 0, j := 0 }

/-- The state in which `Threaded_Iteration` starts the two threads: the buffer has been
resized (`REQUIRE(ringBuff.Resize(buffer_size) == true)`) and `measArr` cleared. -/
def Threaded_Iteration_start (prior : RingBuffer) (buffer_size : Nat) (refArr : List Int) :
    System :=
  { ringBuff := (Resize prior buffer_size true).1,
    measArr := List.replicate refArr.length 0,
    prod := Worker.start refArr.length,
    cons := Worker.start refArr.length }

/-- One atomic step of `Producer(nr_of_items)`: a `Poke` attempt (on success `k = i`, `j = 0`
and the copy loop is entered), one `*data_prod++ = refArr[k++]` of the copy loop, or, at the
exit of the copy loop, `Write(nr_of_items)` followed by the loop tests
(`result == false` retries, otherwise `i += nr_of_items` and `i < NR_ITEMS_THREAD_TEST`). -/
def Producer (refArr : List Int) (nr_of_items : Nat) (s : System) : System :=
  match s.prod.phase with
  | Phase.done => s
  | Phase.attempt =>
    match Poke s.ringBuff nr_of_items with
    | (b, some (ptr, _)) =>
      { s with ringBuff := b,
               prod := { s.prod with data := ptr, k := s.prod.i, j := 0, phase := Phase.copy } }
    | (b, none) => { s with ringBuff := b }
  | Phase.copy =>
    if s.prod.j < nr_of_items then
      { s with
        ringBuff := { s.ringBuff with
          storage := s.ringBuff.storage.set s.prod.data (refArr.getD s.prod.k 0) },
        prod := { s.prod with data := s.prod.data + 1, k := s.prod.k + 1, j := s.prod.j + 1 } }
    else
      match Write s.ringBuff nr_of_items with
      | (b, true) =>
        { s with ringBuff := b,
                 prod := { s.prod with
                   i := s.prod.i + nr_of_items,
                   phase := if s.prod.i + nr_of_items < refArr.length then Phase.attempt
                            else Phase.done } }
      | (b, false) => { s with ringBuff := b, prod := { s.prod with phase := Phase.attempt } }

/-- One atomic step of `Consumer(nr_of_items)`: a `Peek` attempt, one
`measArr[k++] = *data_cons++` of the copy loop, or, at the exit of the copy loop,
`Read(nr_of_items)` followed by the loop tests. -/
def Consumer (refArr : List Int) (nr_of_items : Nat) (s : System) : System :=
  match s.cons.phase with
  | Phase.done => s
  | Phase.attempt =>
    match Peek s.ringBuff nr_of_items with
    | (b, some (ptr, _)) =>
      { s with ringBuff := b,
               cons := { s.cons with data := ptr, k := s.cons.i, j := 0, phase := Phase.copy } }
    | (b, none) => { s with ringBuff := b }
  | Phase.copy =>
    if s.cons.j < nr_of_items then
      { s with
        measArr := s.measArr.set s.cons.k (s.ringBuff.storage.getD s.cons.data 0),
        cons := { s.cons with data := s.cons.data + 1, k := s.cons.k + 1, j := s.cons.j + 1 } }
    else
      match Read s.ringBuff nr_of_items with
      | (b, true) =>
        { s with ringBuff := b,
                 cons := { s.cons with
                   i := s.cons.i + nr_of_items,
                   phase := if s.cons.i + nr_of_items < refArr.length then Phase.attempt
                            else Phase.done } }
      | (b, false) => { s with ringBuff := b, cons := { s.cons with phase := Phase.attempt } }

/-- An interleaving of the two threads: at step `n` the producer moves when `sched n` is
`true`, the consumer otherwise. `exec` is the state after `n` steps. -/
def exec (refArr : List Int) (prod_nr_items cons_nr_items : Nat) (start : System)
    (sched : Nat → Bool) : Nat → System
  | 0 => start
  | n + 1 =>
    if sched n = true then
      Producer refArr prod_nr_items (exec refArr prod_nr_items cons_nr_items start sched n)
    else
      Consumer refArr cons_nr_items (exec refArr prod_nr_items cons_nr_items start sched n)

/-- Both threads have left their loops (`prod.join(); cons.join();` return). -/
def finished (s : System) : Prop :=
  s.prod.phase = Phase.done ∧ s.cons.phase = Phase.done

instance (s : System) : Decidable (finished s) := by
  unfold finished; infer_instance

/-- A schedule that lets each of the two threads move again and again. -/
def Fair (sched : Nat → Bool) : Prop :=
  ∀ n, (∃ m, n ≤ m ∧ sched m = true) ∧ (∃ m, n ≤ m ∧ sched m = false)

/-- The schedule that alternates between the two threads. -/
def alternate (n : Nat) : Bool := n % 2 = 0

/-- The invariant of the interleaved run, for a buffer of usable capacity `cap` and chunk
sizes `p` (producer) and `c` (consumer). With `P = prod.i` elements committed and
`C = cons.i` elements consumed: the indices are `P` and `C` modulo `cap + 1`, at most `cap`
elements are resident, the slots of the elements `C .. P` hold the corresponding elements of
`refArr`, the first `C` entries of `measArr` equal those of `refArr`, and a thread inside its
copy loop holds a reservation that is still valid. -/
structure Inv (refArr : List Int) (cap p c : Nat) (s : System) : Prop where
  capacity_eq : s.ringBuff.capacity = cap
  usable : s.ringBuff.initialized = true
  storage_len : s.ringBuff.storage.length = cap + 1
  write_eq : s.ringBuff.writeIndex = s.prod.i % (cap + 1)
  read_eq : s.ringBuff.readIndex = s.cons.i % (cap + 1)
  read_le_written : s.cons.i ≤ s.prod.i
  written_le : s.prod.i ≤ s.cons.i + cap
  written_le_len : s.prod.i ≤ refArr.length
  prod_dvd : p ∣ s.prod.i
  cons_dvd : c ∣ s.cons.i
  meas_len : s.measArr.length = refArr.length
  stored : ∀ x, s.cons.i ≤ x → x < s.prod.i →
    s.ringBuff.storage.getD (x % (cap + 1)) 0 = refArr.getD x 0
  measured : ∀ x, x < s.cons.i → s.measArr.getD x 0 = refArr.getD x 0
  prod_attempt : s.prod.phase = Phase.attempt → s.prod.i < refArr.length
  prod_copy : s.prod.phase = Phase.copy →
    s.prod.i < refArr.length ∧ s.prod.j ≤ p ∧
    s.prod.data = s.prod.i % (cap + 1) + s.prod.j ∧ s.prod.k = s.prod.i + s.prod.j ∧
    s.prod.i % (cap + 1) + p ≤ cap + 1 ∧ s.prod.i + p ≤ s.cons.i + cap ∧
    ∀ x, s.prod.i ≤ x → x < s.prod.i + s.prod.j →
      s.ringBuff.storage.getD (x % (cap + 1)) 0 = refArr.getD x 0
  prod_done : s.prod.phase = Phase.done → refArr.length ≤ s.prod.i
  cons_attempt : s.cons.phase = Phase.attempt → s.cons.i < refArr.length
  cons_copy : s.cons.phase = Phase.copy →
    s.cons.i < refArr.length ∧ s.cons.j ≤ c ∧
    s.cons.data = s.cons.i % (cap + 1) + s.cons.j ∧ s.cons.k = s.cons.i + s.cons.j ∧
    s.cons.i % (cap + 1) + c ≤ cap + 1 ∧ s.cons.i + c ≤ s.prod.i ∧
    ∀ x, s.cons.i ≤ x → x < s.cons.i + s.cons.j → s.measArr.getD x 0 = refArr.getD x 0
  cons_done : s.cons.phase = Phase.done → refArr.length ≤ s.cons.i

/-- The steps a thread still has to take when every attempt succeeds, bounded linearly:
three per outstanding element, less the steps already taken in the current round. -/
def Worker.remaining (len : Nat) (w : Worker) : Nat :=
  match w.phase with
  | Phase.attempt => 3 * (len - w.i)
  | Phase.copy => 3 * (len - w.i) - 1 - w.j
  | Phase.done => 0

/-- The progress measure of the interleaved run. -/
def remaining (refArr : List Int) (s : System) : Nat :=
  s.prod.remaining refArr.length + s.cons.remaining refArr.length

/-- A short reference array for running the test by evaluation. -/
def sampleRef : List Int := [10, 20, 30, 40]

end ThreadingTest

namespace StackPainting

/-! ## Stack painting: loop lemmas -/

theorem paint_loop_apply (area : Nat) :
    ∀ (fuel : Nat) (mem : Memory) (i : Nat), area ≤ i + fuel → ∀ j,
      paint_loop area fuel mem i j = if i ≤ j ∧ j < area then PAINT_VALUE else mem j := by
  intro fuel
  induction fuel with
  | zero =>
    intro mem i h j
    have : ¬ (i ≤ j ∧ j < area) := by omega
    simp [paint_loop, this]
  | succ f ih =>
    intro mem i h j
    unfold paint_loop
    by_cases hi : i < area
    · rw [if_pos hi, ih _ _ (by omega)]
      by_cases hj : j = i
      · subst hj
        have h1 : ¬ (j + 1 ≤ j ∧ j < area) := by omega
        have h2 : j ≤ j ∧ j < area := ⟨le_refl _, hi⟩
        simp [h1, h2]
      · rw [Function.update_noteq hj]
        by_cases hc : i ≤ j ∧ j < area
        · have : i + 1 ≤ j ∧ j < area := by omega
          rw [if_pos this, if_pos hc]
        · have : ¬ (i + 1 ≤ j ∧ j < area) := by omega
          rw [if_neg this, if_neg hc]
    · rw [if_neg hi]
      have : ¬ (i ≤ j ∧ j < area) := by omega
      rw [if_neg this]

theorem scan_loop_spec (mem : Memory) (area : Nat) :
    ∀ (fuel i : Nat), i ≤ area → area ≤ i + fuel →
      i ≤ scan_loop mem area fuel i ∧ scan_loop mem area fuel i ≤ area ∧
      (∀ j, i ≤ j → j < scan_loop mem area fuel i → mem j = PAINT_VALUE) ∧
      (scan_loop mem area fuel i < area → mem (scan_loop mem area fuel i) ≠ PAINT_VALUE) := by
  intro fuel
  induction fuel with
  | zero =>
    intro i h1 h2
    have : i = area := by omega
    subst this
    simp only [scan_loop]
    refine ⟨le_refl _, le_refl _, ?_, ?_⟩
    · intro j h3 h4; omega
    · intro h; omega
  | succ f ih =>
    intro i h1 h2
    unfold scan_loop
    by_cases hi : i < area
    · rw [if_pos hi]
      by_cases hm : mem i ≠ PAINT_VALUE
      · rw [if_pos hm]
        refine ⟨le_refl _, h1, ?_, fun _ => hm⟩
        intro j h3 h4; omega
      · rw [if_neg hm]
        have hm' : mem i = PAINT_VALUE := not_not.mp hm
        obtain ⟨a, b, c, d⟩ := ih (i + 1) (by omega) (by omega)
        refine ⟨by omega, b, ?_, d⟩
        intro j h3 h4
        by_cases hj : j = i
        · subst hj; exact hm'
        · exact c j (by omega) h4
    · rw [if_neg hi]
      refine ⟨le_refl _, h1, ?_, ?_⟩
      · intro j h3 h4; omega
      · intro h; omega

theorem paint_stack_below (msp sstack : Nat) (mem : Memory) (i : Nat)
    (hi : i < area_to_paint msp sstack) : paint_stack msp sstack mem i = PAINT_VALUE := by
  unfold paint_stack
  rw [paint_loop_apply _ _ _ _ (by omega)]
  exact if_pos ⟨Nat.zero_le _, hi⟩

theorem paint_stack_above (msp sstack : Nat) (mem : Memory) (i : Nat)
    (hi : area_to_paint msp sstack ≤ i) : paint_stack msp sstack mem i = mem i := by
  unfold paint_stack
  rw [paint_loop_apply _ _ _ _ (by omega)]
  exact if_neg (by omega)

/-- The scan does not read the word at index `0` (nor any word below its start). -/
theorem scan_loop_congr (mem mem' : Memory) (area : Nat) :
    ∀ (fuel i : Nat), (∀ j, i ≤ j → mem' j = mem j) →
      scan_loop mem' area fuel i = scan_loop mem area fuel i := by
  intro fuel
  induction fuel with
  | zero => intro i _; rfl
  | succ f ih =>
    intro i h
    unfold scan_loop
    rw [h i (le_refl _), ih (i + 1) (fun j hj => h j (by omega))]

/-- The value `get_used_stack` returns, in terms of the final loop counter, when the
region fits the 32-bit address space. -/
theorem get_used_stack_val (area : Nat) (mem : Memory) (st : Statics)
    (ha : 1 ≤ area) (hfit : 4 * area < U32) :
    (get_used_stack area mem st).2 = 4 * area - 4 * scan_loop mem area area 1 ∧
    (get_used_stack area mem st).1.total_stack_size = 4 * area := by
  have hU : U32 = 4294967296 := by norm_num [U32]
  have harea : area % U32 = area := Nat.mod_eq_of_lt (by omega)
  obtain ⟨h1, h2, -, -⟩ := scan_loop_spec mem area area 1 ha (by omega)
  simp only [get_used_stack, harea]
  generalize scan_loop mem area area 1 = i at h1 h2 ⊢
  rw [hU] at hfit ⊢
  constructor <;> omega

theorem topRun_spec (mem : Memory) :
    ∀ a, topRun mem a ≤ a ∧ (∀ j, a - topRun mem a ≤ j → j < a → mem j ≠ PAINT_VALUE) := by
  intro a
  induction a with
  | zero => exact ⟨le_refl _, fun j _ h => absurd h (Nat.not_lt_zero _)⟩
  | succ a ih =>
    obtain ⟨h1, h2⟩ := ih
    unfold topRun
    by_cases hm : mem a ≠ PAINT_VALUE
    · rw [if_pos hm]
      refine ⟨by omega, ?_⟩
      intro j hj1 hj2
      by_cases hja : j = a
      · subst hja; exact hm
      · exact h2 j (by omega) (by omega)
    · rw [if_neg hm]
      refine ⟨by omega, ?_⟩
      intro j hj1 hj2
      omega

/-- C6 (as stated, refuted): on the four-word stack `[paint, used, paint, used]` the scan
stops at index 1 and `get_used_stack` returns 12, whereas four times the number of
consecutive non-paint words counted from the top downward is 4. -/
theorem get_used_stack_not_top_run :
    (get_used_stack 4 sampleStack Statics.init).2 = 12 ∧ 4 * topRun sampleStack 4 = 4 ∧
    (get_used_stack 4 sampleStack Statics.init).2 ≠ 4 * topRun sampleStack 4 := by
  decide

/-- C6 (amended): the scan runs upward from index 1 and stops at the first word that does not
hold `PAINT_VALUE`. For a region of `area ≥ 1` words whose bottom word holds `PAINT_VALUE`,
`get_used_stack` returns at least four times the number of consecutive non-paint words
counted from the top of the stack downward, and exactly that value when every word below
that top run holds `PAINT_VALUE`. -/
theorem get_used_stack_top_run (area : Nat) (mem : Memory) (st : Statics)
    (ha : 1 ≤ area) (hfit : 4 * area < U32) (h0 : mem 0 = PAINT_VALUE) :
    4 * topRun mem area ≤ (get_used_stack area mem st).2 ∧
    ((∀ j, j < area - topRun mem area → mem j = PAINT_VALUE) →
      (get_used_stack area mem st).2 = 4 * topRun mem area) := by
  obtain ⟨hv, -⟩ := get_used_stack_val area mem st ha hfit
  obtain ⟨s1, s2, s3, s4⟩ := scan_loop_spec mem area area 1 ha (by omega)
  obtain ⟨t1, t2⟩ := topRun_spec mem area
  rw [hv]
  generalize scan_loop mem area area 1 = i at s1 s2 s3 s4
  generalize topRun mem area = t at t1 t2
  have ht : t < area := by
    by_contra hc
    exact t2 0 (by omega) (by omega) h0
  have hle : i + t ≤ area := by
    by_contra hc
    have h1 : 1 ≤ t := by omega
    exact t2 (area - t) (le_refl _) (by omega) (s3 (area - t) (by omega) (by omega))
  refine ⟨by omega, ?_⟩
  intro hp
  have hge : area ≤ i + t := by
    by_contra hc
    exact s4 (by omega) (hp i (by omega))
  omega

theorem get_used_stack_top_run_witness :
    4 * topRun (fun i => if i = 3 then 0 else PAINT_VALUE) 4 ≤
      (get_used_stack 4 (fun i => if i = 3 then 0 else PAINT_VALUE) Statics.init).2 ∧
    (get_used_stack 4 (fun i => if i = 3 then 0 else PAINT_VALUE) Statics.init).2 =
      4 * topRun (fun i => if i = 3 then 0 else PAINT_VALUE) 4 :=
  have h := get_used_stack_top_run 4 (fun i => if i = 3 then 0 else PAINT_VALUE) Statics.init
    (by decide) (by decide) (by decide)
  ⟨h.1, h.2 (by decide)⟩

/-- C7: with `n = (MSP - &_sstack) / 4`, after `paint_stack` every word at index `i < n`
above the bottom of the stack holds `PAINT_VALUE = 0xC5C5C5C5`, and every word at index
`i ≥ n` is unchanged. -/
theorem paint_stack_frame (msp sstack : Nat) (mem : Memory) :
    PAINT_VALUE = 0xC5C5C5C5 ∧
    (sstack ≤ msp → msp < U32 → area_to_paint msp sstack = (msp - sstack) / 4) ∧
    (∀ i, i < area_to_paint msp sstack → paint_stack msp sstack mem i = PAINT_VALUE) ∧
    (∀ i, area_to_paint msp sstack ≤ i → paint_stack msp sstack mem i = mem i) := by
  refine ⟨rfl, ?_, ?_, ?_⟩
  · intro h1 h2
    have hU : U32 = 4294967296 := by norm_num [U32]
    unfold area_to_paint
    rw [hU] at h2 ⊢
    omega
  · exact paint_stack_below msp sstack mem
  · exact paint_stack_above msp sstack mem

theorem paint_stack_frame_witness :
    area_to_paint 0x20000010 0x20000000 = (0x20000010 - 0x20000000) / 4 ∧
    paint_stack 0x20000010 0x20000000 sampleStack 3 = PAINT_VALUE ∧
    paint_stack 0x20000010 0x20000000 sampleStack 5 = sampleStack 5 :=
  have h := paint_stack_frame 0x20000010 0x20000000 sampleStack
  ⟨h.2.1 (by decide) (by decide), h.2.2.1 3 (by decide), h.2.2.2 5 (by decide)⟩

theorem Statics.Reachable.total_eq {area : Nat} {st : Statics}
    (h : Statics.Reachable area st) :
    st.total_stack_size = 0 ∨ st.total_stack_size = (4 * area) % U32 := by
  have key : ∀ mem st', (get_used_stack area mem st').1.total_stack_size = (4 * area) % U32 := by
    intro mem st'
    simp only [get_used_stack]
    rw [Nat.mod_mul_mod, Nat.mul_comm]
  induction h with
  | init => exact Or.inl rfl
  | used mem st _ _ => exact Or.inr (key mem st)
  | total mem st _ ih =>
    simp only [get_total_stack]
    by_cases h0 : st.total_stack_size = 0
    · rw [if_pos h0]; exact Or.inr (key mem st)
    · rw [if_neg h0]; exact ih

/-- C8: whatever the stack content and whatever calls of `get_used_stack` and
`get_total_stack` came before, `get_total_stack` returns `4 * area mod 2^32`, where `area`
is the number of words between `_sstack` and `_estack`; this is the total that
`get_used_stack` stores, and the first call (statics still `0`) already returns it. -/
theorem get_total_stack_value (area : Nat) (mem mem' : Memory) (st : Statics)
    (h : Statics.Reachable area st) :
    (get_total_stack area mem st).2 = (4 * area) % U32 ∧
    (get_total_stack area mem Statics.init).2 = (4 * area) % U32 ∧
    (get_total_stack area mem st).2 = (get_used_stack area mem' st).1.total_stack_size := by
  have key : ∀ m st', (get_used_stack area m st').1.total_stack_size = (4 * area) % U32 := by
    intro m st'
    simp only [get_used_stack]
    rw [Nat.mod_mul_mod, Nat.mul_comm]
  have main : ∀ st', Statics.Reachable area st' →
      (get_total_stack area mem st').2 = (4 * area) % U32 := by
    intro st' h'
    simp only [get_total_stack]
    by_cases h0 : st'.total_stack_size = 0
    · rw [if_pos h0]; exact key mem st'
    · rw [if_neg h0]
      rcases h'.total_eq with h1 | h1
      · exact absurd h1 h0
      · exact h1
  exact ⟨main st h, main _ Statics.Reachable.init, (main st h).trans (key mem' st).symm⟩

theorem get_total_stack_value_witness :
    (get_total_stack 4 sampleStack (get_used_stack 4 sampleStack Statics.init).1).2
      = (4 * 4) % U32 :=
  (get_total_stack_value 4 sampleStack sampleStack _
    (Statics.Reachable.used sampleStack _ Statics.Reachable.init)).1

/-- C9: if `paint_stack` painted `n` words with `1 ≤ n ≤ area` and the words below index `n`
have not been modified since, `get_used_stack` returns at most `4 * (area - n)`, and exactly
`4 * (area - n)` when `n = area` or the word at index `n` does not hold `PAINT_VALUE`. -/
theorem paint_then_measure (msp sstack area : Nat) (mem mem' : Memory) (st : Statics)
    (hn : 1 ≤ area_to_paint msp sstack) (hna : area_to_paint msp sstack ≤ area)
    (hfit : 4 * area < U32)
    (hkeep : ∀ j, j < area_to_paint msp sstack → mem' j = paint_stack msp sstack mem j) :
    (get_used_stack area mem' st).2 ≤ 4 * (area - area_to_paint msp sstack) ∧
    ((area_to_paint msp sstack = area ∨ mem' (area_to_paint msp sstack) ≠ PAINT_VALUE) →
      (get_used_stack area mem' st).2 = 4 * (area - area_to_paint msp sstack)) := by
  have ha : 1 ≤ area := le_trans hn hna
  obtain ⟨hv, -⟩ := get_used_stack_val area mem' st ha hfit
  obtain ⟨s1, s2, s3, s4⟩ := scan_loop_spec mem' area area 1 ha (by omega)
  have hp : ∀ j, j < area_to_paint msp sstack → mem' j = PAINT_VALUE := by
    intro j hj
    rw [hkeep j hj]
    exact paint_stack_below msp sstack mem j hj
  rw [hv]
  generalize scan_loop mem' area area 1 = i at s1 s2 s3 s4
  generalize area_to_paint msp sstack = n at hn hna hp
  have hge : n ≤ i := by
    by_contra hc
    exact s4 (by omega) (hp i (by omega))
  refine ⟨by omega, ?_⟩
  intro hcase
  have hle : i ≤ n := by
    rcases hcase with h1 | h1
    · omega
    · by_contra hc
      exact h1 (s3 n hn (by omega))
  omega

theorem paint_then_measure_witness :
    (get_used_stack 6 (paint_stack 0x20000010 0x20000000 (fun _ => 7)) Statics.init).2
        ≤ 4 * (6 - area_to_paint 0x20000010 0x20000000) ∧
    (get_used_stack 6 (paint_stack 0x20000010 0x20000000 (fun _ => 7)) Statics.init).2
        = 4 * (6 - area_to_paint 0x20000010 0x20000000) :=
  have h := paint_then_measure 0x20000010 0x20000000 6 (fun _ => 7)
    (paint_stack 0x20000010 0x20000000 (fun _ => 7)) Statics.init
    (by decide) (by decide) (by decide) (fun _ _ => rfl)
  ⟨h.1, h.2 (Or.inr (by decide))⟩

/-- C10: for a region of `area ≥ 1` words, `get_used_stack` returns `total - 4 * i` with
`total = 4 * area` and `i` the least index in `[1, area)` whose word differs from
`PAINT_VALUE` (`i = area` when there is none); the word at index 0 is never examined, the
result is a multiple of 4, at most `total - 4` and never `total`. For `area = 0` the
subtraction wraps: the result is `2^32 - 4` and the total is `0`. -/
theorem get_used_stack_first_unpainted (area : Nat) (mem : Memory) (st : Statics) :
    (1 ≤ area → 4 * area < U32 →
      (∃ i, 1 ≤ i ∧ i ≤ area ∧ (∀ j, 1 ≤ j → j < i → mem j = PAINT_VALUE) ∧
        (i < area → mem i ≠ PAINT_VALUE) ∧ (area = 1 → i = 1) ∧
        (get_used_stack area mem st).2 = 4 * area - 4 * i) ∧
      (get_used_stack area mem st).1.total_stack_size = 4 * area ∧
      (∀ v, (get_used_stack area (Function.update mem 0 v) st).2
          = (get_used_stack area mem st).2) ∧
      (get_used_stack area mem st).2 % 4 = 0 ∧
      (get_used_stack area mem st).2 ≤ 4 * area - 4 ∧
      (get_used_stack area mem st).2 ≠ 4 * area) ∧
    ((get_used_stack 0 mem st).2 = 2 ^ 32 - 4 ∧
      (get_used_stack 0 mem st).1.total_stack_size = 0) := by
  constructor
  · intro ha hfit
    obtain ⟨hv, ht⟩ := get_used_stack_val area mem st ha hfit
    obtain ⟨s1, s2, s3, s4⟩ := scan_loop_spec mem area area 1 ha (by omega)
    refine ⟨⟨scan_loop mem area area 1, s1, s2, s3, s4, by omega, hv⟩, ht, ?_, ?_, ?_, ?_⟩
    · intro v
      have hU : U32 = 4294967296 := by norm_num [U32]
      have harea : area % U32 = area := Nat.mod_eq_of_lt (by omega)
      simp only [get_used_stack, harea]
      rw [scan_loop_congr mem (Function.update mem 0 v) area area 1
        (fun j hj => Function.update_noteq (by omega) _ _)]
    · rw [hv]; omega
    · rw [hv]; omega
    · rw [hv]; omega
  · constructor <;> simp [get_used_stack, scan_loop, U32]

theorem get_used_stack_first_unpainted_witness :
    (∃ i, 1 ≤ i ∧ i ≤ 4 ∧ (∀ j, 1 ≤ j → j < i → sampleStack j = PAINT_VALUE) ∧
        (i < 4 → sampleStack i ≠ PAINT_VALUE) ∧ ((4 : Nat) = 1 → i = 1) ∧
        (get_used_stack 4 sampleStack Statics.init).2 = 4 * 4 - 4 * i) ∧
    (get_used_stack 4 sampleStack Statics.init).2 ≤ 4 * 4 - 4 :=
  have h := (get_used_stack_first_unpainted 4 sampleStack Statics.init).1
    (by decide) (by decide)
  ⟨h.1, h.2.2.2.2.1⟩

end StackPainting

namespace ContiguousRingbuffer

/-! ## Ring buffer: arithmetic of the indices -/

/-- The resident count without the modulus, for indices in range. -/
theorem resident_cases (b : RingBuffer) (hw : b.writeIndex < b.capacity + 1)
    (hr : b.readIndex < b.capacity + 1) :
    resident b = if b.readIndex ≤ b.writeIndex then b.writeIndex - b.readIndex
      else b.writeIndex + b.capacity + 1 - b.readIndex := by
  unfold resident
  by_cases h : b.readIndex ≤ b.writeIndex
  · rw [if_pos h]
    have e : b.writeIndex + b.capacity + 1 - b.readIndex
        = (b.writeIndex - b.readIndex) + (b.capacity + 1) := by omega
    rw [e, Nat.add_mod_right]
    exact Nat.mod_eq_of_lt (by omega)
  · rw [if_neg h]
    exact Nat.mod_eq_of_lt (by omega)

theorem resident_le (b : RingBuffer) : resident b ≤ b.capacity := by
  unfold resident
  exact Nat.lt_succ_iff.mp (Nat.mod_lt _ (Nat.succ_pos _))

/-- A sum below twice the modulus reduces by at most one subtraction. -/
theorem add_mod_cases (a k m : Nat) (h : a + k < 2 * m) :
    (a + k) % m = if a + k < m then a + k else a + k - m := by
  by_cases hlt : a + k < m
  · rw [if_pos hlt]; exact Nat.mod_eq_of_lt hlt
  · rw [if_neg hlt, Nat.mod_eq_sub_mod (by omega)]
    exact Nat.mod_eq_of_lt (by omega)

theorem Poke_fst (b : RingBuffer) (n : Nat) : (Poke b n).1 = b := by
  unfold Poke; split <;> rfl

theorem Peek_fst (b : RingBuffer) (n : Nat) : (Peek b n).1 = b := by
  unfold Peek; split <;> rfl

theorem Poke_some (b : RingBuffer) (n ptr avail : Nat) (h : (Poke b n).2 = some (ptr, avail)) :
    b.initialized = true ∧ 1 ≤ n ∧ n ≤ freeRun b ∧ ptr = b.writeIndex ∧ avail = freeRun b := by
  unfold Poke at h
  split at h
  · next hc =>
    simp only [Option.some.injEq, Prod.mk.injEq] at h
    exact ⟨hc.1, hc.2.1, hc.2.2, h.1.symm, h.2.symm⟩
  · simp at h

theorem Peek_some (b : RingBuffer) (n ptr avail : Nat) (h : (Peek b n).2 = some (ptr, avail)) :
    b.initialized = true ∧ 1 ≤ n ∧ n ≤ occupiedRun b ∧ ptr = b.readIndex ∧
      avail = occupiedRun b := by
  unfold Peek at h
  split at h
  · next hc =>
    simp only [Option.some.injEq, Prod.mk.injEq] at h
    exact ⟨hc.1, hc.2.1, hc.2.2, h.1.symm, h.2.symm⟩
  · simp at h

theorem Resize_valid (prior : RingBuffer) (capacity : Nat) (h : 1 ≤ capacity) :
    (Resize prior capacity true).1.Valid ∧ (Resize prior capacity true).1.capacity = capacity := by
  have hc : ¬ (capacity = 0 ∨ true = false) := by simp; omega
  unfold Resize
  rw [if_neg hc]
  exact ⟨⟨rfl, h, List.length_replicate _ _, Nat.succ_pos _, Nat.succ_pos _⟩, rfl⟩

/-- The resident count of the buffer, in terms of the two element counts. -/
theorem resident_of_counts (b : RingBuffer) (cap P C : Nat) (hcap : b.capacity = cap)
    (hw : b.writeIndex = P % (cap + 1)) (hr : b.readIndex = C % (cap + 1))
    (h1 : C ≤ P) (h2 : P ≤ C + cap) : resident b = P - C := by
  have hwlt : b.writeIndex < b.capacity + 1 := by
    rw [hw, hcap]; exact Nat.mod_lt _ (Nat.succ_pos _)
  have hrlt : b.readIndex < b.capacity + 1 := by
    rw [hr, hcap]; exact Nat.mod_lt _ (Nat.succ_pos _)
  rw [resident_cases b hwlt hrlt, hcap]
  have hP : P = C + (P - C) := by omega
  have hmod : b.writeIndex = (b.readIndex + (P - C)) % (cap + 1) := by
    rw [hw, hr, Nat.mod_add_mod, ← hP]
  rw [hcap] at hrlt
  rw [add_mod_cases _ _ _ (by omega)] at hmod
  by_cases hlt : b.readIndex + (P - C) < cap + 1
  · rw [if_pos hlt] at hmod
    rw [if_pos (by omega)]; omega
  · rw [if_neg hlt] at hmod
    rw [if_neg (by omega)]; omega

/-! ## Ring buffer: sessions under the contract -/

theorem Session.start_sound (prior : RingBuffer) (capacity : Nat) (hcap : 1 ≤ capacity) :
    (Session.start prior capacity).Sound capacity := by
  obtain ⟨hv, hc⟩ := Resize_valid prior capacity hcap
  have hcnd : ¬ (capacity = 0 ∨ true = false) := by simp; omega
  have hw : (Resize prior capacity true).1.writeIndex = 0 := by
    unfold Resize; rw [if_neg hcnd]
  have hr : (Resize prior capacity true).1.readIndex = 0 := by
    unfold Resize; rw [if_neg hcnd]
  refine ⟨hv, hc, ?_, ?_, le_refl _, Nat.zero_le _, ?_, ?_⟩
  · exact hw.trans (Nat.zero_mod _).symm
  · exact hr.trans (Nat.zero_mod _).symm
  · intro left h; cases h
  · intro left h; cases h

theorem Session.step_sound (capacity : Nat) (σ σ1 : Session) (op : Op)
    (h : σ.Sound capacity) (hs : σ.step op = some σ1) : σ1.Sound capacity := by
  obtain ⟨hv, hc, hw, hr, h1, h2, hres, hgr⟩ := h
  have hcount : resident σ.buf = σ.written - σ.consumed :=
    resident_of_counts σ.buf capacity _ _ hc hw hr h1 h2
  have hwlt : σ.buf.writeIndex < capacity + 1 := by
    rw [hw]; exact Nat.mod_lt _ (Nat.succ_pos _)
  have hrlt : σ.buf.readIndex < capacity + 1 := by
    rw [hr]; exact Nat.mod_lt _ (Nat.succ_pos _)
  cases op with
  | poke n =>
    by_cases hok : σ.buf.initialized = true ∧ 1 ≤ n ∧ n ≤ freeRun σ.buf
    · simp only [Session.step, Poke, if_pos hok, Option.some.injEq] at hs
      subst hs
      have hfree : freeRun σ.buf ≤ capacity + 1 - σ.buf.writeIndex ∧
          freeRun σ.buf ≤ capacity - (σ.written - σ.consumed) := by
        unfold freeRun
        rw [hcount, hc]
        exact ⟨Nat.min_le_left _ _, Nat.min_le_right _ _⟩
      refine ⟨hv, hc, hw, hr, h1, h2, ?_, hgr⟩
      intro left hl
      simp only [Option.some.injEq] at hl
      subst hl
      dsimp only
      constructor <;> omega
    · simp only [Session.step, Poke, if_neg hok, Option.some.injEq] at hs
      subst hs
      exact ⟨hv, hc, hw, hr, h1, h2, hres, hgr⟩
  | peek n =>
    by_cases hok : σ.buf.initialized = true ∧ 1 ≤ n ∧ n ≤ occupiedRun σ.buf
    · simp only [Session.step, Peek, if_pos hok, Option.some.injEq] at hs
      subst hs
      have hocc : occupiedRun σ.buf ≤ capacity + 1 - σ.buf.readIndex ∧
          occupiedRun σ.buf ≤ σ.written - σ.consumed := by
        unfold occupiedRun
        rw [hcount, hc]
        exact ⟨Nat.min_le_left _ _, Nat.min_le_right _ _⟩
      refine ⟨hv, hc, hw, hr, h1, h2, hres, ?_⟩
      intro left hl
      simp only [Option.some.injEq] at hl
      subst hl
      dsimp only
      constructor <;> omega
    · simp only [Session.step, Peek, if_neg hok, Option.some.injEq] at hs
      subst hs
      exact ⟨hv, hc, hw, hr, h1, h2, hres, hgr⟩
  | write count =>
    cases hrs : σ.reserved with
    | none => simp [Session.step, hrs] at hs
    | some left =>
      obtain ⟨r1, r2⟩ := hres left hrs
      by_cases hle : count ≤ left
      · simp only [Session.step, hrs, if_pos hle, Write, if_pos hv.1,
          Option.some.injEq] at hs
        subst hs
        have hwi : (σ.buf.writeIndex + count) % (σ.buf.capacity + 1)
            = (σ.written + count) % (capacity + 1) := by
          rw [hc, hw, Nat.mod_add_mod]
        have hcases := add_mod_cases σ.buf.writeIndex count (capacity + 1) (by omega)
        rw [← hc] at hcases
        refine ⟨⟨hv.1, hv.2.1, hv.2.2.1, Nat.mod_lt _ (Nat.succ_pos _), hv.2.2.2.2⟩,
          hc, hwi, hr, by dsimp only; omega, by dsimp only; omega, ?_, ?_⟩
        · intro l hl
          simp only [Option.some.injEq] at hl
          subst hl
          dsimp only
          rw [hcases]
          by_cases hlt : σ.buf.writeIndex + count < σ.buf.capacity + 1
          · rw [if_pos hlt]; constructor <;> omega
          · rw [if_neg hlt]; constructor <;> omega
        · intro l hl
          obtain ⟨g1, g2⟩ := hgr l hl
          exact ⟨g1, by dsimp only; omega⟩
      · simp [Session.step, hrs, if_neg hle] at hs
  | read count =>
    cases hrs : σ.granted with
    | none => simp [Session.step, hrs] at hs
    | some left =>
      obtain ⟨g1, g2⟩ := hgr left hrs
      by_cases hle : count ≤ left
      · simp only [Session.step, hrs, if_pos hle, Read, if_pos hv.1,
          Option.some.injEq] at hs
        subst hs
        have hri : (σ.buf.readIndex + count) % (σ.buf.capacity + 1)
            = (σ.consumed + count) % (capacity + 1) := by
          rw [hc, hr, Nat.mod_add_mod]
        have hcases := add_mod_cases σ.buf.readIndex count (capacity + 1) (by omega)
        rw [← hc] at hcases
        refine ⟨⟨hv.1, hv.2.1, hv.2.2.1, hv.2.2.2.1, Nat.mod_lt _ (Nat.succ_pos _)⟩,
          hc, hw, hri, by dsimp only; omega, by dsimp only; omega, ?_, ?_⟩
        · intro l hl
          obtain ⟨r1, r2⟩ := hres l hl
          exact ⟨r1, by dsimp only; omega⟩
        · intro l hl
          simp only [Option.some.injEq] at hl
          subst hl
          dsimp only
          rw [hcases]
          by_cases hlt : σ.buf.readIndex + count < σ.buf.capacity + 1
          · rw [if_pos hlt]; constructor <;> omega
          · rw [if_neg hlt]; constructor <;> omega
      · simp [Session.step, hrs, if_neg hle] at hs

theorem Session.run_sound (capacity : Nat) (ops : List Op) :
    ∀ (σ σ1 : Session), σ.Sound capacity → σ.run ops = some σ1 → σ1.Sound capacity := by
  induction ops with
  | nil =>
    intro σ σ1 h hr
    simp only [Session.run, Option.some.injEq] at hr
    rw [← hr]; exact h
  | cons op ops ih =>
    intro σ σ1 h hr
    simp only [Session.run] at hr
    split at hr
    · next σ2 hstep => exact ih σ2 σ1 (Session.step_sound capacity σ σ2 op h hstep) hr
    · simp at hr

/-- C2: on an initialized buffer, a successful `Poke` returns `availableCount ≥ requestedCount`,
the run `[writeIndex, writeIndex + availableCount)` ends at or before slot `capacity + 1` and
none of its slots holds unread data; a successful `Peek` returns
`availableCount ≥ requestedCount`, the run `[readIndex, readIndex + availableCount)` ends at or
before slot `capacity + 1` and every slot of it holds unread data. Neither call changes the
buffer, in particular neither index. -/
theorem Poke_Peek_contiguous (b : RingBuffer) (hb : b.Valid) (requestedCount : Nat) :
    (∀ ptr availableCount, (Poke b requestedCount).2 = some (ptr, availableCount) →
      ptr = b.writeIndex ∧ requestedCount ≤ availableCount ∧
      b.writeIndex + availableCount ≤ b.capacity + 1 ∧
      ∀ slot, b.writeIndex ≤ slot → slot < b.writeIndex + availableCount →
        ¬ holdsUnread b slot) ∧
    (∀ ptr availableCount, (Peek b requestedCount).2 = some (ptr, availableCount) →
      ptr = b.readIndex ∧ requestedCount ≤ availableCount ∧
      b.readIndex + availableCount ≤ b.capacity + 1 ∧
      ∀ slot, b.readIndex ≤ slot → slot < b.readIndex + availableCount →
        holdsUnread b slot) ∧
    ((Poke b requestedCount).1.writeIndex = b.writeIndex ∧
      (Poke b requestedCount).1.readIndex = b.readIndex ∧
      (Peek b requestedCount).1.writeIndex = b.writeIndex ∧
      (Peek b requestedCount).1.readIndex = b.readIndex) := by
  obtain ⟨-, hcap, -, hw, hr⟩ := hb
  have hres := resident_cases b hw hr
  refine ⟨?_, ?_, ?_⟩
  · intro ptr avail h
    obtain ⟨-, -, hn, hptr, hav⟩ := Poke_some b requestedCount ptr avail h
    have hfree : avail ≤ b.capacity + 1 - b.writeIndex ∧ avail ≤ b.capacity - resident b := by
      rw [hav]; unfold freeRun; exact ⟨Nat.min_le_left _ _, Nat.min_le_right _ _⟩
    refine ⟨hptr, by omega, by omega, ?_⟩
    intro slot hs1 hs2 hun
    obtain ⟨k, hk, hslot⟩ := hun
    have hmod := add_mod_cases b.readIndex k (b.capacity + 1)
      (by have := resident_le b; omega)
    rw [hmod] at hslot
    by_cases hle : b.readIndex ≤ b.writeIndex
    · rw [if_pos hle] at hres
      by_cases hlt : b.readIndex + k < b.capacity + 1
      · rw [if_pos hlt] at hslot; omega
      · rw [if_neg hlt] at hslot; omega
    · rw [if_neg hle] at hres
      by_cases hlt : b.readIndex + k < b.capacity + 1
      · rw [if_pos hlt] at hslot; omega
      · rw [if_neg hlt] at hslot; omega
  · intro ptr avail h
    obtain ⟨-, -, hn, hptr, hav⟩ := Peek_some b requestedCount ptr avail h
    have hocc : avail ≤ b.capacity + 1 - b.readIndex ∧ avail ≤ resident b := by
      rw [hav]; unfold occupiedRun; exact ⟨Nat.min_le_left _ _, Nat.min_le_right _ _⟩
    refine ⟨hptr, by omega, by omega, ?_⟩
    intro slot hs1 hs2
    refine ⟨slot - b.readIndex, by omega, ?_⟩
    have e : b.readIndex + (slot - b.readIndex) = slot := by omega
    rw [e]
    exact (Nat.mod_eq_of_lt (by omega)).symm
  · rw [Poke_fst, Peek_fst]
    exact ⟨rfl, rfl, rfl, rfl⟩

theorem Poke_Peek_contiguous_witness :
    ((4 : Nat) ≤ 13 ∧ 2 + 13 ≤ 15 + 1 ∧
      ¬ holdsUnread (Write (Resize RingBuffer.unused 15 true).1 2).1 5) ∧
    ((2 : Nat) ≤ 2 ∧ 0 + 2 ≤ 15 + 1 ∧
      holdsUnread (Write (Resize RingBuffer.unused 15 true).1 2).1 1) :=
  have h := Poke_Peek_contiguous (Write (Resize RingBuffer.unused 15 true).1 2).1
    (by decide) 4
  have g := Poke_Peek_contiguous (Write (Resize RingBuffer.unused 15 true).1 2).1
    (by decide) 2
  have h1 := h.1 2 13 (by decide)
  have g1 := g.2.1 0 2 (by decide)
  ⟨⟨h1.2.1, h1.2.2.1, h1.2.2.2 5 (by decide) (by decide)⟩,
   ⟨g1.2.1, g1.2.2.1, g1.2.2.2 1 (by decide) (by decide)⟩⟩

/-- C3: for every `capacity ≥ 1` and every prior buffer state, `Resize(capacity)` with a
successful allocation returns `true` and leaves an initialized, empty buffer with
`writeIndex = readIndex = 0`, `capacity + 1` slots and exactly that usable capacity
(`Poke(capacity)` is granted `capacity` slots, `Poke(capacity + 1)` fails), on which `Peek(1)`
fails; `Resize(0)` returns `false` and leaves the buffer uninitialized. -/
theorem Resize_empty (prior : RingBuffer) (capacity : Nat) (allocOk : Bool) :
    (1 ≤ capacity →
      (Resize prior capacity true).2 = true ∧
      (Resize prior capacity true).1.initialized = true ∧
      (Resize prior capacity true).1.writeIndex = 0 ∧
      (Resize prior capacity true).1.readIndex = 0 ∧
      (Resize prior capacity true).1.capacity = capacity ∧
      (Resize prior capacity true).1.storage.length = capacity + 1 ∧
      resident (Resize prior capacity true).1 = 0 ∧
      (Peek (Resize prior capacity true).1 1).2 = none ∧
      (Poke (Resize prior capacity true).1 capacity).2 = some (0, capacity) ∧
      (Poke (Resize prior capacity true).1 (capacity + 1)).2 = none) ∧
    ((Resize prior 0 allocOk).2 = false ∧ (Resize prior 0 allocOk).1.initialized = false) := by
  constructor
  · intro h
    have hc : ¬ (capacity = 0 ∨ true = false) := by simp; omega
    have hf : min (capacity + 1) capacity = capacity := Nat.min_eq_right (by omega)
    unfold Resize
    rw [if_neg hc]
    refine ⟨rfl, rfl, rfl, rfl, rfl, List.length_replicate _ _, ?_, ?_, ?_, ?_⟩
    · simp [resident]
    · simp [Peek, occupiedRun, resident]
    · simp [Poke, freeRun, resident, hf, h]
    · simp [Poke, freeRun, resident, hf]
  · simp [Resize, RingBuffer.unused]

theorem Resize_empty_witness :
    (Resize RingBuffer.unused 15 true).2 = true ∧
    (Peek (Resize RingBuffer.unused 15 true).1 1).2 = none ∧
    (Poke (Resize RingBuffer.unused 15 true).1 15).2 = some (0, 15) :=
  have h := (Resize_empty RingBuffer.unused 15 true).1 (by decide)
  ⟨h.1, h.2.2.2.2.2.2.2.1, h.2.2.2.2.2.2.2.2.1⟩

/-- Writing past the reserved length breaks the contract: after `Poke(1)` granted 15 slots
and `Write(15)` used them, a second `Write(15)` is not a call of a session. -/
theorem Session.write_past_reservation_refused :
    (Session.start RingBuffer.unused 15).run [Op.poke 1, Op.write 15, Op.write 15] = none := by
  decide

/-- C4: in every state reached from a successful `Resize(capacity)` by calls of `Poke`,
`Write`, `Peek`, `Read` in which each `Write(count)` / `Read(count)` stays within the
`availableCount` of the most recent successful `Poke` / `Peek`, both indices are below
`capacity + 1`, no more elements have been read than written, and the number of unread
elements, `written - consumed`, equals
`(writeIndex - readIndex + capacity + 1) mod (capacity + 1)` and is at most `capacity`. -/
theorem Session.unread_within_capacity (prior : RingBuffer) (capacity : Nat) (ops : List Op)
    (σ : Session) (hcap : 1 ≤ capacity)
    (hrun : (Session.start prior capacity).run ops = some σ) :
    σ.buf.capacity = capacity ∧
    0 ≤ σ.buf.writeIndex ∧ σ.buf.writeIndex < capacity + 1 ∧
    0 ≤ σ.buf.readIndex ∧ σ.buf.readIndex < capacity + 1 ∧
    σ.consumed ≤ σ.written ∧
    (σ.buf.writeIndex + capacity + 1 - σ.buf.readIndex) % (capacity + 1)
      = σ.written - σ.consumed ∧
    σ.written - σ.consumed ≤ capacity := by
  have hs := Session.run_sound capacity ops (Session.start prior capacity) σ
    (Session.start_sound prior capacity hcap) hrun
  obtain ⟨hv, hc, hw, hr, h1, h2, -, -⟩ := hs
  have hcount : resident σ.buf = σ.written - σ.consumed :=
    resident_of_counts σ.buf capacity _ _ hc hw hr h1 h2
  unfold resident at hcount
  rw [hc] at hcount
  refine ⟨hc, Nat.zero_le _, ?_, Nat.zero_le _, ?_, h1, hcount, by omega⟩
  · rw [hw]; exact Nat.mod_lt _ (Nat.succ_pos _)
  · rw [hr]; exact Nat.mod_lt _ (Nat.succ_pos _)

theorem Session.unread_within_capacity_witness :
    (Session.start RingBuffer.unused 15).run
        [Op.poke 4, Op.write 4, Op.peek 1, Op.read 1, Op.poke 12, Op.write 12]
      = some sampleSession ∧
    sampleSession.buf.writeIndex < 15 + 1 ∧ sampleSession.buf.readIndex < 15 + 1 ∧
    (sampleSession.buf.writeIndex + 15 + 1 - sampleSession.buf.readIndex) % (15 + 1)
      = sampleSession.written - sampleSession.consumed ∧
    sampleSession.written - sampleSession.consumed ≤ 15 :=
  have h := Session.unread_within_capacity RingBuffer.unused 15
    [Op.poke 4, Op.write 4, Op.peek 1, Op.read 1, Op.poke 12, Op.write 12] sampleSession
    (by decide) (by decide)
  ⟨by decide, h.2.2.1, h.2.2.2.2.1, h.2.2.2.2.2.2.1, h.2.2.2.2.2.2.2⟩

end ContiguousRingbuffer

namespace ThreadingTest

open ContiguousRingbuffer

/-! ## Threading test: list and index lemmas -/

theorem getD_set_eq (l : List Int) (i : Nat) (v d : Int) (h : i < l.length) :
    (l.set i v).getD i d = v := by
  simp [List.getD_eq_getElem?_getD, List.getElem?_set, h]

theorem getD_set_ne (l : List Int) (i j : Nat) (v d : Int) (h : i ≠ j) :
    (l.set i v).getD j d = l.getD j d := by
  simp [List.getD_eq_getElem?_getD, List.getElem?_set, h]

theorem list_eq_of_getD (l l' : List Int) (hl : l.length = l'.length)
    (h : ∀ x, x < l'.length → l.getD x 0 = l'.getD x 0) : l = l' := by
  apply List.ext_getElem hl
  intro n h1 h2
  have := h n h2
  simpa [List.getD_eq_getElem?_getD, List.getElem?_eq_getElem h1,
    List.getElem?_eq_getElem h2] using this

/-- Two positions less than a full turn apart occupy different slots. -/
theorem mod_ne_of_lt (m x y : Nat) (h1 : x < y) (h2 : y < x + m) : x % m ≠ y % m := by
  intro h
  have hd : m ∣ y - x := (Nat.modEq_iff_dvd' (le_of_lt h1)).mp h
  have := Nat.le_of_dvd (by omega) hd
  omega

/-- Advancing within the straight run does not wrap. -/
theorem mod_add_of_lt (a j m : Nat) (h : a % m + j < m) : (a + j) % m = a % m + j := by
  rw [← Nat.mod_add_mod]
  exact Nat.mod_eq_of_lt h

/-- The next multiple of the chunk size does not overshoot a multiple of it. -/
theorem add_le_of_dvd (p a b : Nat) (ha : p ∣ a) (hb : p ∣ b) (h : a < b) : a + p ≤ b := by
  obtain ⟨x, rfl⟩ := ha
  obtain ⟨y, rfl⟩ := hb
  have hp : 0 < p := by
    rcases Nat.eq_zero_or_pos p with h0 | h0
    · subst h0; simp at h
    · exact h0
  have hxy : x < y := lt_of_mul_lt_mul_left h (Nat.zero_le _)
  calc p * x + p = p * (x + 1) := by ring
    _ ≤ p * y := Nat.mul_le_mul_left p hxy

/-! ## Threading test: the steps, case by case -/

theorem Producer_done (refArr : List Int) (nr : Nat) (s : System)
    (h : s.prod.phase = Phase.done) : Producer refArr nr s = s := by
  unfold Producer; rw [h]

theorem Producer_attempt_fail (refArr : List Int) (nr : Nat) (s : System)
    (h : s.prod.phase = Phase.attempt)
    (hf : ¬ (s.ringBuff.initialized = true ∧ 1 ≤ nr ∧ nr ≤ freeRun s.ringBuff)) :
    Producer refArr nr s = s := by
  unfold Producer; rw [h]
  simp only [Poke, if_neg hf]

theorem Producer_attempt_ok (refArr : List Int) (nr : Nat) (s : System)
    (h : s.prod.phase = Phase.attempt)
    (hok : s.ringBuff.initialized = true ∧ 1 ≤ nr ∧ nr ≤ freeRun s.ringBuff) :
    Producer refArr nr s =
      { s with prod := { s.prod with data := s.ringBuff.writeIndex, k := s.prod.i, j := 0,
                                     phase := Phase.copy } } := by
  unfold Producer; rw [h]
  simp only [Poke, if_pos hok]

theorem Producer_copy_store (refArr : List Int) (nr : Nat) (s : System)
    (h : s.prod.phase = Phase.copy) (hj : s.prod.j < nr) :
    Producer refArr nr s =
      { s with
        ringBuff := { s.ringBuff with
          storage := s.ringBuff.storage.set s.prod.data (refArr.getD s.prod.k 0) },
        prod := { s.prod with data := s.prod.data + 1, k := s.prod.k + 1,
                              j := s.prod.j + 1 } } := by
  unfold Producer; rw [h]
  simp only [if_pos hj]

theorem Producer_copy_write (refArr : List Int) (nr : Nat) (s : System)
    (h : s.prod.phase = Phase.copy) (hj : ¬ s.prod.j < nr)
    (hu : s.ringBuff.initialized = true) :
    Producer refArr nr s =
      { s with
        ringBuff := { s.ringBuff with
          writeIndex := (s.ringBuff.writeIndex + nr) % (s.ringBuff.capacity + 1) },
        prod := { s.prod with
          i := s.prod.i + nr,
          phase := if s.prod.i + nr < refArr.length then Phase.attempt else Phase.done } } := by
  unfold Producer; rw [h]
  simp only [if_neg hj, Write, if_pos hu]

theorem Consumer_done (refArr : List Int) (nr : Nat) (s : System)
    (h : s.cons.phase = Phase.done) : Consumer refArr nr s = s := by
  unfold Consumer; rw [h]

theorem Consumer_attempt_fail (refArr : List Int) (nr : Nat) (s : System)
    (h : s.cons.phase = Phase.attempt)
    (hf : ¬ (s.ringBuff.initialized = true ∧ 1 ≤ nr ∧ nr ≤ occupiedRun s.ringBuff)) :
    Consumer refArr nr s = s := by
  unfold Consumer; rw [h]
  simp only [Peek, if_neg hf]

theorem Consumer_attempt_ok (refArr : List Int) (nr : Nat) (s : System)
    (h : s.cons.phase = Phase.attempt)
    (hok : s.ringBuff.initialized = true ∧ 1 ≤ nr ∧ nr ≤ occupiedRun s.ringBuff) :
    Consumer refArr nr s =
      { s with cons := { s.cons with data := s.ringBuff.readIndex, k := s.cons.i, j := 0,
                                     phase := Phase.copy } } := by
  unfold Consumer; rw [h]
  simp only [Peek, if_pos hok]

theorem Consumer_copy_load (refArr : List Int) (nr : Nat) (s : System)
    (h : s.cons.phase = Phase.copy) (hj : s.cons.j < nr) :
    Consumer refArr nr s =
      { s with
        measArr := s.measArr.set s.cons.k (s.ringBuff.storage.getD s.cons.data 0),
        cons := { s.cons with data := s.cons.data + 1, k := s.cons.k + 1,
                              j := s.cons.j + 1 } } := by
  unfold Consumer; rw [h]
  simp only [if_pos hj]

theorem Consumer_copy_read (refArr : List Int) (nr : Nat) (s : System)
    (h : s.cons.phase = Phase.copy) (hj : ¬ s.cons.j < nr)
    (hu : s.ringBuff.initialized = true) :
    Consumer refArr nr s =
      { s with
        ringBuff := { s.ringBuff with
          readIndex := (s.ringBuff.readIndex + nr) % (s.ringBuff.capacity + 1) },
        cons := { s.cons with
          i := s.cons.i + nr,
          phase := if s.cons.i + nr < refArr.length then Phase.attempt else Phase.done } } := by
  unfold Consumer; rw [h]
  simp only [if_neg hj, Read, if_pos hu]

/-! ## Threading test: the invariant is kept by every step -/

theorem Inv.start (refArr : List Int) (prior : RingBuffer) (cap p c : Nat) (hcap : 1 ≤ cap) :
    Inv refArr cap p c (Threaded_Iteration_start prior cap refArr) := by
  have hc : ¬ (cap = 0 ∨ true = false) := by simp; omega
  have hb : (Resize prior cap true).1 =
      RingBuffer.mk cap (List.replicate (cap + 1) 0) 0 0 true := by
    unfold Resize; rw [if_neg hc]
  have hphase : ∀ ph, (Worker.start refArr.length).phase = ph →
      (ph = Phase.attempt → 0 < refArr.length) ∧ ph ≠ Phase.copy ∧
      (ph = Phase.done → refArr.length ≤ 0) := by
    intro ph hph
    unfold Worker.start at hph
    by_cases hN : 0 < refArr.length
    · simp only [if_pos hN] at hph
      subst hph
      exact ⟨fun _ => hN, by decide, fun hd => (by cases hd)⟩
    · simp only [if_neg hN] at hph
      subst hph
      exact ⟨fun hd => (by cases hd), by decide, fun _ => (by omega)⟩
  unfold Threaded_Iteration_start
  rw [hb]
  exact
    { capacity_eq := rfl
      usable := rfl
      storage_len := List.length_replicate _ _
      write_eq := (Nat.zero_mod _).symm
      read_eq := (Nat.zero_mod _).symm
      read_le_written := le_refl _
      written_le := Nat.zero_le _
      written_le_len := Nat.zero_le _
      prod_dvd := Nat.dvd_zero _
      cons_dvd := Nat.dvd_zero _
      meas_len := List.length_replicate _ _
      stored := fun x _ hx => absurd hx (Nat.not_lt_zero _)
      measured := fun x hx => absurd hx (Nat.not_lt_zero _)
      prod_attempt := fun hph => (hphase _ rfl).1 hph
      prod_copy := fun hph => absurd hph (hphase _ rfl).2.1
      prod_done := fun hph => (hphase _ rfl).2.2 hph
      cons_attempt := fun hph => (hphase _ rfl).1 hph
      cons_copy := fun hph => absurd hph (hphase _ rfl).2.1
      cons_done := fun hph => (hphase _ rfl).2.2 hph }

theorem Inv.producer (refArr : List Int) (cap p c : Nat) (s : System)
    (hpN : p ∣ refArr.length) (h : Inv refArr cap p c s) :
    Inv refArr cap p c (Producer refArr p s) := by
  have hres : resident s.ringBuff = s.prod.i - s.cons.i :=
    resident_of_counts s.ringBuff cap _ _ h.capacity_eq h.write_eq h.read_eq
      h.read_le_written h.written_le
  cases hph : s.prod.phase with
  | done => rw [Producer_done refArr p s hph]; exact h
  | attempt =>
    by_cases hok : s.ringBuff.initialized = true ∧ 1 ≤ p ∧ p ≤ freeRun s.ringBuff
    · rw [Producer_attempt_ok refArr p s hph hok]
      have hfree := hok.2.2
      unfold freeRun at hfree
      rw [hres, h.capacity_eq, h.write_eq] at hfree
      obtain ⟨hf1, hf2⟩ := Nat.le_min.mp hfree
      have hmod : s.prod.i % (cap + 1) < cap + 1 := Nat.mod_lt _ (Nat.succ_pos _)
      have := h.read_le_written
      exact
        { capacity_eq := h.capacity_eq
          usable := h.usable
          storage_len := h.storage_len
          write_eq := h.write_eq
          read_eq := h.read_eq
          read_le_written := h.read_le_written
          written_le := h.written_le
          written_le_len := h.written_le_len
          prod_dvd := h.prod_dvd
          cons_dvd := h.cons_dvd
          meas_len := h.meas_len
          stored := h.stored
          measured := h.measured
          prod_attempt := fun hc => by cases hc
          prod_copy := fun _ =>
            ⟨h.prod_attempt hph, Nat.zero_le _, h.write_eq, rfl,
              by dsimp only; omega, by dsimp only; omega,
              fun x hx1 hx2 => by dsimp only at hx1 hx2; omega⟩
          prod_done := fun hc => by cases hc
          cons_attempt := h.cons_attempt
          cons_copy := h.cons_copy
          cons_done := h.cons_done }
    · rw [Producer_attempt_fail refArr p s hph hok]; exact h
  | copy =>
    obtain ⟨c1, c2, c3, c4, c5, c6, c7⟩ := h.prod_copy hph
    by_cases hj : s.prod.j < p
    · rw [Producer_copy_store refArr p s hph hj]
      have hslot : (s.prod.i + s.prod.j) % (cap + 1) = s.prod.data := by
        rw [c3]; exact mod_add_of_lt _ _ _ (by omega)
      have hne : ∀ x, s.cons.i ≤ x → x < s.prod.i + s.prod.j →
          s.prod.data ≠ x % (cap + 1) := by
        intro x hx1 hx2
        rw [← hslot]
        exact fun e => mod_ne_of_lt (cap + 1) x _ hx2 (by omega) e.symm
      have hlen : s.prod.data < s.ringBuff.storage.length := by
        rw [h.storage_len, c3]; omega
      exact
        { capacity_eq := h.capacity_eq
          usable := h.usable
          storage_len := (List.length_set _ _ _).trans h.storage_len
          write_eq := h.write_eq
          read_eq := h.read_eq
          read_le_written := h.read_le_written
          written_le := h.written_le
          written_le_len := h.written_le_len
          prod_dvd := h.prod_dvd
          cons_dvd := h.cons_dvd
          meas_len := h.meas_len
          stored := fun x hx1 hx2 =>
            (getD_set_ne _ _ _ _ _ (hne x hx1 (by dsimp only at hx2; omega))).trans
              (h.stored x hx1 hx2)
          measured := h.measured
          prod_attempt := fun hc => by rw [hph] at hc; cases hc
          prod_copy := fun _ =>
            ⟨c1, hj, by dsimp only; omega, by dsimp only; omega,
              c5, c6, fun x hx1 hx2 => by
                dsimp only at hx1 hx2
                by_cases hx : x = s.prod.i + s.prod.j
                · show (s.ringBuff.storage.set s.prod.data _).getD (x % (cap + 1)) 0 = _
                  rw [hx, hslot, getD_set_eq _ _ _ _ hlen, c4]
                · have hx3 : x < s.prod.i + s.prod.j := by omega
                  have := h.read_le_written
                  exact (getD_set_ne _ _ _ _ _ (hne x (by omega) hx3)).trans (c7 x hx1 hx3)⟩
          prod_done := fun hc => by rw [hph] at hc; cases hc
          cons_attempt := h.cons_attempt
          cons_copy := h.cons_copy
          cons_done := h.cons_done }
    · rw [Producer_copy_write refArr p s hph hj h.usable]
      have hjp : s.prod.j = p := by omega
      have hnext : s.prod.i + p ≤ refArr.length :=
        add_le_of_dvd p _ _ h.prod_dvd hpN c1
      exact
        { capacity_eq := h.capacity_eq
          usable := h.usable
          storage_len := h.storage_len
          write_eq := by
            show (s.ringBuff.writeIndex + p) % (s.ringBuff.capacity + 1) = _
            rw [h.capacity_eq, h.write_eq, Nat.mod_add_mod]
          read_eq := h.read_eq
          read_le_written := le_trans h.read_le_written (Nat.le_add_right _ _)
          written_le := c6
          written_le_len := hnext
          prod_dvd := Nat.dvd_add h.prod_dvd (dvd_refl p)
          cons_dvd := h.cons_dvd
          meas_len := h.meas_len
          stored := fun x hx1 hx2 => by
            dsimp only at hx1 hx2
            by_cases hx : x < s.prod.i
            · exact h.stored x hx1 hx
            · exact c7 x (by omega) (by rw [hjp]; exact hx2)
          measured := h.measured
          prod_attempt := fun hc => by
            by_cases hlt : s.prod.i + p < refArr.length
            · exact hlt
            · exfalso
              have hc' : (if s.prod.i + p < refArr.length then Phase.attempt else Phase.done)
                  = Phase.attempt := hc
              rw [if_neg hlt] at hc'
              cases hc'
          prod_copy := fun hc => by
            exfalso
            have hc' : (if s.prod.i + p < refArr.length then Phase.attempt else Phase.done)
                = Phase.copy := hc
            split at hc' <;> cases hc'
          prod_done := fun hc => by
            by_cases hlt : s.prod.i + p < refArr.length
            · exfalso
              have hc' : (if s.prod.i + p < refArr.length then Phase.attempt else Phase.done)
                  = Phase.done := hc
              rw [if_pos hlt] at hc'
              cases hc'
            · exact Nat.le_of_not_lt hlt
          cons_attempt := h.cons_attempt
          cons_copy := fun hc => by
            obtain ⟨d1, d2, d3, d4, d5, d6, d7⟩ := h.cons_copy hc
            exact ⟨d1, d2, d3, d4, d5, le_trans d6 (Nat.le_add_right _ _), d7⟩
          cons_done := h.cons_done }

theorem Inv.consumer (refArr : List Int) (cap p c : Nat) (s : System)
    (h : Inv refArr cap p c s) :
    Inv refArr cap p c (Consumer refArr c s) := by
  have hres : resident s.ringBuff = s.prod.i - s.cons.i :=
    resident_of_counts s.ringBuff cap _ _ h.capacity_eq h.write_eq h.read_eq
      h.read_le_written h.written_le
  cases hph : s.cons.phase with
  | done => rw [Consumer_done refArr c s hph]; exact h
  | attempt =>
    by_cases hok : s.ringBuff.initialized = true ∧ 1 ≤ c ∧ c ≤ occupiedRun s.ringBuff
    · rw [Consumer_attempt_ok refArr c s hph hok]
      have hocc := hok.2.2
      unfold occupiedRun at hocc
      rw [hres, h.capacity_eq, h.read_eq] at hocc
      obtain ⟨hf1, hf2⟩ := Nat.le_min.mp hocc
      have hmod : s.cons.i % (cap + 1) < cap + 1 := Nat.mod_lt _ (Nat.succ_pos _)
      have := h.read_le_written
      exact
        { capacity_eq := h.capacity_eq
          usable := h.usable
          storage_len := h.storage_len
          write_eq := h.write_eq
          read_eq := h.read_eq
          read_le_written := h.read_le_written
          written_le := h.written_le
          written_le_len := h.written_le_len
          prod_dvd := h.prod_dvd
          cons_dvd := h.cons_dvd
          meas_len := h.meas_len
          stored := h.stored
          measured := h.measured
          prod_attempt := h.prod_attempt
          prod_copy := h.prod_copy
          prod_done := h.prod_done
          cons_attempt := fun hc => by cases hc
          cons_copy := fun _ =>
            ⟨h.cons_attempt hph, Nat.zero_le _, h.read_eq, rfl,
              by dsimp only; omega, by dsimp only; omega,
              fun x hx1 hx2 => by dsimp only at hx1 hx2; omega⟩
          cons_done := fun hc => by cases hc }
    · rw [Consumer_attempt_fail refArr c s hph hok]; exact h
  | copy =>
    obtain ⟨d1, d2, d3, d4, d5, d6, d7⟩ := h.cons_copy hph
    by_cases hj : s.cons.j < c
    · rw [Consumer_copy_load refArr c s hph hj]
      have hslot : (s.cons.i + s.cons.j) % (cap + 1) = s.cons.data := by
        rw [d3]; exact mod_add_of_lt _ _ _ (by omega)
      have hlen : s.cons.k < s.measArr.length := by
        have := h.written_le_len
        rw [h.meas_len, d4]; omega
      have hval : s.ringBuff.storage.getD s.cons.data 0 = refArr.getD s.cons.k 0 := by
        rw [← hslot, d4]
        exact h.stored _ (Nat.le_add_right _ _) (by omega)
      exact
        { capacity_eq := h.capacity_eq
          usable := h.usable
          storage_len := h.storage_len
          write_eq := h.write_eq
          read_eq := h.read_eq
          read_le_written := h.read_le_written
          written_le := h.written_le
          written_le_len := h.written_le_len
          prod_dvd := h.prod_dvd
          cons_dvd := h.cons_dvd
          meas_len := (List.length_set _ _ _).trans h.meas_len
          stored := h.stored
          measured := fun x hx =>
            (getD_set_ne _ _ _ _ _ (by dsimp only at hx; omega)).trans (h.measured x hx)
          prod_attempt := h.prod_attempt
          prod_copy := h.prod_copy
          prod_done := h.prod_done
          cons_attempt := fun hc => by rw [hph] at hc; cases hc
          cons_copy := fun _ =>
            ⟨d1, hj, by dsimp only; omega, by dsimp only; omega,
              d5, d6, fun x hx1 hx2 => by
                dsimp only at hx1 hx2
                by_cases hx : x = s.cons.k
                · show (s.measArr.set s.cons.k _).getD x 0 = _
                  rw [hx, getD_set_eq _ _ _ _ hlen, hval]
                · have hx3 : x < s.cons.i + s.cons.j := by omega
                  exact (getD_set_ne _ _ _ _ _ (Ne.symm hx)).trans (d7 x hx1 hx3)⟩
          cons_done := fun hc => by rw [hph] at hc; cases hc }
    · rw [Consumer_copy_read refArr c s hph hj h.usable]
      have hjc : s.cons.j = c := by omega
      exact
        { capacity_eq := h.capacity_eq
          usable := h.usable
          storage_len := h.storage_len
          write_eq := h.write_eq
          read_eq := by
            show (s.ringBuff.readIndex + c) % (s.ringBuff.capacity + 1) = _
            rw [h.capacity_eq, h.read_eq, Nat.mod_add_mod]
          read_le_written := d6
          written_le := by have := h.written_le; dsimp only; omega
          written_le_len := h.written_le_len
          prod_dvd := h.prod_dvd
          cons_dvd := Nat.dvd_add h.cons_dvd (dvd_refl c)
          meas_len := h.meas_len
          stored := fun x hx1 hx2 => h.stored x (by dsimp only at hx1; omega) hx2
          measured := fun x hx => by
            dsimp only at hx
            by_cases hx' : x < s.cons.i
            · exact h.measured x hx'
            · exact d7 x (by omega) (by rw [hjc]; exact hx)
          prod_attempt := h.prod_attempt
          prod_copy := fun hc => by
            obtain ⟨c1, c2, c3, c4, c5, c6, c7⟩ := h.prod_copy hc
            exact ⟨c1, c2, c3, c4, c5, by dsimp only; omega, c7⟩
          prod_done := h.prod_done
          cons_attempt := fun hc => by
            by_cases hlt : s.cons.i + c < refArr.length
            · exact hlt
            · exfalso
              have hc' : (if s.cons.i + c < refArr.length then Phase.attempt else Phase.done)
                  = Phase.attempt := hc
              rw [if_neg hlt] at hc'
              cases hc'
          cons_copy := fun hc => by
            exfalso
            have hc' : (if s.cons.i + c < refArr.length then Phase.attempt else Phase.done)
                = Phase.copy := hc
            split at hc' <;> cases hc'
          cons_done := fun hc => by
            by_cases hlt : s.cons.i + c < refArr.length
            · exfalso
              have hc' : (if s.cons.i + c < refArr.length then Phase.attempt else Phase.done)
                  = Phase.done := hc
              rw [if_pos hlt] at hc'
              cases hc'
            · exact Nat.le_of_not_lt hlt }

theorem Inv.exec (refArr : List Int) (prior : RingBuffer) (cap p c : Nat)
    (hcap : 1 ≤ cap) (hpN : p ∣ refArr.length) (sched : Nat → Bool) :
    ∀ n, Inv refArr cap p c
      (exec refArr p c (Threaded_Iteration_start prior cap refArr) sched n) := by
  intro n
  induction n with
  | zero => exact Inv.start refArr prior cap p c hcap
  | succ n ih =>
    unfold ThreadingTest.exec
    by_cases hs : sched n = true
    · rw [if_pos hs]; exact Inv.producer refArr cap p c _ hpN ih
    · rw [if_neg hs]; exact Inv.consumer refArr cap p c _ ih

/-! ## Threading test: progress and termination under fair schedules -/

theorem Worker.remaining_attempt (len : Nat) (w : Worker) (h : w.phase = Phase.attempt) :
    w.remaining len = 3 * (len - w.i) := by
  unfold Worker.remaining; rw [h]

theorem Worker.remaining_copy (len : Nat) (w : Worker) (h : w.phase = Phase.copy) :
    w.remaining len = 3 * (len - w.i) - 1 - w.j := by
  unfold Worker.remaining; rw [h]

theorem Worker.remaining_done (len : Nat) (w : Worker) (h : w.phase = Phase.done) :
    w.remaining len = 0 := by
  unfold Worker.remaining; rw [h]

/-- The measure of a thread that has just committed a round. -/
theorem Worker.remaining_next (len i nr data k j : Nat) :
    Worker.remaining len
      { i := i + nr, phase := if i + nr < len then Phase.attempt else Phase.done,
        data := data, k := k, j := j } ≤ 3 * (len - (i + nr)) := by
  by_cases hlt : i + nr < len
  · rw [Worker.remaining_attempt _ _ (by simp only [if_pos hlt])]
  · rw [Worker.remaining_done _ _ (by simp only [if_neg hlt])]
    exact Nat.zero_le _

/-- A chunk size dividing the number of slots always fits before the physical end. -/
theorem chunk_fits (p P M : Nat) (hpM : p ∣ M) (hpP : p ∣ P) (hM : 0 < M) :
    p ≤ M - P % M := by
  have h1 : p ∣ P % M := (Nat.dvd_mod_iff hpM).mpr hpP
  have h2 : p ∣ M - P % M := Nat.dvd_sub' hpM h1
  exact Nat.le_of_dvd (Nat.sub_pos_of_lt (Nat.mod_lt _ hM)) h2

theorem Producer_progress (refArr : List Int) (cap p c : Nat) (s : System)
    (hp : 0 < p) (hpN : p ∣ refArr.length) (h : Inv refArr cap p c s)
    (hen : s.prod.phase = Phase.copy ∨
      (s.prod.phase = Phase.attempt ∧ p ≤ freeRun s.ringBuff)) :
    remaining refArr (Producer refArr p s) < remaining refArr s := by
  unfold remaining
  rcases hen with hph | ⟨hph, hfree⟩
  · obtain ⟨c1, c2, c3, c4, c5, c6, c7⟩ := h.prod_copy hph
    have hnext : s.prod.i + p ≤ refArr.length := add_le_of_dvd p _ _ h.prod_dvd hpN c1
    rw [Worker.remaining_copy _ _ hph]
    by_cases hj : s.prod.j < p
    · rw [Producer_copy_store refArr p s hph hj]
      apply Nat.add_lt_add_right
      simp only [Worker.remaining, hph]
      omega
    · rw [Producer_copy_write refArr p s hph hj h.usable]
      apply Nat.add_lt_add_right
      have := Worker.remaining_next refArr.length s.prod.i p s.prod.data s.prod.k s.prod.j
      have hjp : s.prod.j = p := by omega
      refine lt_of_le_of_lt this ?_
      omega
  · rw [Producer_attempt_ok refArr p s hph ⟨h.usable, hp, hfree⟩]
    apply Nat.add_lt_add_right
    have := h.prod_attempt hph
    rw [Worker.remaining_attempt _ _ hph, Worker.remaining_copy _ _ rfl]
    dsimp only
    omega

theorem Producer_stutter_or_progress (refArr : List Int) (cap p c : Nat) (s : System)
    (hp : 0 < p) (hpN : p ∣ refArr.length) (h : Inv refArr cap p c s) :
    Producer refArr p s = s ∨ remaining refArr (Producer refArr p s) < remaining refArr s := by
  cases hph : s.prod.phase with
  | done => exact Or.inl (Producer_done refArr p s hph)
  | copy => exact Or.inr (Producer_progress refArr cap p c s hp hpN h (Or.inl hph))
  | attempt =>
    by_cases hfree : p ≤ freeRun s.ringBuff
    · exact Or.inr (Producer_progress refArr cap p c s hp hpN h (Or.inr ⟨hph, hfree⟩))
    · exact Or.inl (Producer_attempt_fail refArr p s hph (fun hok => hfree hok.2.2))

theorem Consumer_progress (refArr : List Int) (cap p c : Nat) (s : System)
    (hc : 0 < c) (h : Inv refArr cap p c s)
    (hen : s.cons.phase = Phase.copy ∨
      (s.cons.phase = Phase.attempt ∧ c ≤ occupiedRun s.ringBuff)) :
    remaining refArr (Consumer refArr c s) < remaining refArr s := by
  unfold remaining
  rcases hen with hph | ⟨hph, hocc⟩
  · obtain ⟨d1, d2, d3, d4, d5, d6, d7⟩ := h.cons_copy hph
    have hnext : s.cons.i + c ≤ refArr.length := le_trans d6 h.written_le_len
    rw [Worker.remaining_copy _ _ hph]
    by_cases hj : s.cons.j < c
    · rw [Consumer_copy_load refArr c s hph hj]
      apply Nat.add_lt_add_left
      simp only [Worker.remaining, hph]
      omega
    · rw [Consumer_copy_read refArr c s hph hj h.usable]
      apply Nat.add_lt_add_left
      have := Worker.remaining_next refArr.length s.cons.i c s.cons.data s.cons.k s.cons.j
      have hjc : s.cons.j = c := by omega
      refine lt_of_le_of_lt this ?_
      omega
  · rw [Consumer_attempt_ok refArr c s hph ⟨h.usable, hc, hocc⟩]
    apply Nat.add_lt_add_left
    have := h.cons_attempt hph
    rw [Worker.remaining_attempt _ _ hph, Worker.remaining_copy _ _ rfl]
    dsimp only
    omega

theorem Consumer_stutter_or_progress (refArr : List Int) (cap p c : Nat) (s : System)
    (hc : 0 < c) (h : Inv refArr cap p c s) :
    Consumer refArr c s = s ∨ remaining refArr (Consumer refArr c s) < remaining refArr s := by
  cases hph : s.cons.phase with
  | done => exact Or.inl (Consumer_done refArr c s hph)
  | copy => exact Or.inr (Consumer_progress refArr cap p c s hc h (Or.inl hph))
  | attempt =>
    by_cases hocc : c ≤ occupiedRun s.ringBuff
    · exact Or.inr (Consumer_progress refArr cap p c s hc h (Or.inr ⟨hph, hocc⟩))
    · exact Or.inl (Consumer_attempt_fail refArr c s hph (fun hok => hocc hok.2.2))

/-- No deadlock: while a thread is still running, one of the two can take a step that
makes progress, provided both chunk sizes divide the number of slots and together do not
exceed it. -/
theorem some_thread_enabled (refArr : List Int) (cap p c : Nat) (s : System)
    (hp : 0 < p) (hc : 0 < c) (hpN : p ∣ refArr.length) (hcN : c ∣ refArr.length)
    (hpM : p ∣ cap + 1) (hcM : c ∣ cap + 1) (hpc : p + c ≤ cap + 1)
    (h : Inv refArr cap p c s) (hnf : ¬ finished s) :
    remaining refArr (Producer refArr p s) < remaining refArr s ∨
    remaining refArr (Consumer refArr c s) < remaining refArr s := by
  have hres : resident s.ringBuff = s.prod.i - s.cons.i :=
    resident_of_counts s.ringBuff cap _ _ h.capacity_eq h.write_eq h.read_eq
      h.read_le_written h.written_le
  have hfitP : p ≤ cap + 1 - s.prod.i % (cap + 1) :=
    chunk_fits p _ _ hpM h.prod_dvd (Nat.succ_pos _)
  have hfitC : c ≤ cap + 1 - s.cons.i % (cap + 1) :=
    chunk_fits c _ _ hcM h.cons_dvd (Nat.succ_pos _)
  have hfree : s.prod.i - s.cons.i + p ≤ cap → p ≤ freeRun s.ringBuff := by
    intro hle
    unfold freeRun
    rw [hres, h.capacity_eq, h.write_eq]
    exact Nat.le_min.mpr ⟨hfitP, by omega⟩
  have hocc : c ≤ s.prod.i - s.cons.i → c ≤ occupiedRun s.ringBuff := by
    intro hle
    unfold occupiedRun
    rw [hres, h.capacity_eq, h.read_eq]
    exact Nat.le_min.mpr ⟨hfitC, hle⟩
  have h1 := h.read_le_written
  have h2 := h.written_le_len
  cases hpp : s.prod.phase with
  | copy => exact Or.inl (Producer_progress refArr cap p c s hp hpN h (Or.inl hpp))
  | attempt =>
    have hP := h.prod_attempt hpp
    cases hcp : s.cons.phase with
    | copy => exact Or.inr (Consumer_progress refArr cap p c s hc h (Or.inl hcp))
    | done => have := h.cons_done hcp; omega
    | attempt =>
      by_cases hle : s.prod.i - s.cons.i + p ≤ cap
      · exact Or.inl (Producer_progress refArr cap p c s hp hpN h (Or.inr ⟨hpp, hfree hle⟩))
      · exact Or.inr (Consumer_progress refArr cap p c s hc h
          (Or.inr ⟨hcp, hocc (by omega)⟩))
  | done =>
    have hP := h.prod_done hpp
    cases hcp : s.cons.phase with
    | copy => exact Or.inr (Consumer_progress refArr cap p c s hc h (Or.inl hcp))
    | done => exact absurd ⟨hpp, hcp⟩ hnf
    | attempt =>
      have hC := h.cons_attempt hcp
      have := add_le_of_dvd c _ _ h.cons_dvd hcN hC
      exact Or.inr (Consumer_progress refArr cap p c s hc h
        (Or.inr ⟨hcp, hocc (by omega)⟩))

theorem exec_succ_producer (refArr : List Int) (p c : Nat) (start : System)
    (sched : Nat → Bool) (n : Nat) (h : sched n = true) :
    exec refArr p c start sched (n + 1) = Producer refArr p (exec refArr p c start sched n) := by
  rw [exec, if_pos h]

theorem exec_succ_consumer (refArr : List Int) (p c : Nat) (start : System)
    (sched : Nat → Bool) (n : Nat) (h : sched n = false) :
    exec refArr p c start sched (n + 1) = Consumer refArr c (exec refArr p c start sched n) := by
  rw [exec, if_neg (by rw [h]; decide)]

/-- A thread that can make progress and is scheduled at some later step: by then the
measure has decreased. -/
theorem progress_when_scheduled (refArr : List Int) (prior : RingBuffer) (cap p c : Nat)
    (hcap : 1 ≤ cap) (hp : 0 < p) (hc : 0 < c) (hpN : p ∣ refArr.length)
    (sched : Nat → Bool) (T : Bool) :
    ∀ d n, sched (n + d) = T →
      (T = true → remaining refArr (Producer refArr p
          (exec refArr p c (Threaded_Iteration_start prior cap refArr) sched n))
        < remaining refArr (exec refArr p c (Threaded_Iteration_start prior cap refArr) sched n)) →
      (T = false → remaining refArr (Consumer refArr c
          (exec refArr p c (Threaded_Iteration_start prior cap refArr) sched n))
        < remaining refArr (exec refArr p c (Threaded_Iteration_start prior cap refArr) sched n)) →
      ∃ m, n < m ∧
        remaining refArr (exec refArr p c (Threaded_Iteration_start prior cap refArr) sched m)
        < remaining refArr (exec refArr p c (Threaded_Iteration_start prior cap refArr) sched n) := by
  intro d
  induction d with
  | zero =>
    intro n hs hP hC
    rw [Nat.add_zero] at hs
    cases T with
    | true =>
      exact ⟨n + 1, Nat.lt_succ_self n, by
        rw [exec_succ_producer _ _ _ _ _ _ hs]; exact hP rfl⟩
    | false =>
      exact ⟨n + 1, Nat.lt_succ_self n, by
        rw [exec_succ_consumer _ _ _ _ _ _ hs]; exact hC rfl⟩
  | succ d ih =>
    intro n hs hP hC
    have hinv := Inv.exec refArr prior cap p c hcap hpN sched n
    have hs' : sched (n + 1 + d) = T := by
      have e : n + 1 + d = n + (d + 1) := by omega
      rw [e]; exact hs
    cases hb : sched n with
    | true =>
      have hstep := exec_succ_producer refArr p c
        (Threaded_Iteration_start prior cap refArr) sched n hb
      rcases Producer_stutter_or_progress refArr cap p c _ hp hpN hinv with hst | hpr
      · have heq : exec refArr p c (Threaded_Iteration_start prior cap refArr) sched (n + 1)
            = exec refArr p c (Threaded_Iteration_start prior cap refArr) sched n :=
          hstep.trans hst
        obtain ⟨m, hm1, hm2⟩ := ih (n + 1) hs' (by rw [heq]; exact hP) (by rw [heq]; exact hC)
        rw [heq] at hm2
        exact ⟨m, by omega, hm2⟩
      · exact ⟨n + 1, Nat.lt_succ_self n, by rw [hstep]; exact hpr⟩
    | false =>
      have hstep := exec_succ_consumer refArr p c
        (Threaded_Iteration_start prior cap refArr) sched n hb
      rcases Consumer_stutter_or_progress refArr cap p c _ hc hinv with hst | hpr
      · have heq : exec refArr p c (Threaded_Iteration_start prior cap refArr) sched (n + 1)
            = exec refArr p c (Threaded_Iteration_start prior cap refArr) sched n :=
          hstep.trans hst
        obtain ⟨m, hm1, hm2⟩ := ih (n + 1) hs' (by rw [heq]; exact hP) (by rw [heq]; exact hC)
        rw [heq] at hm2
        exact ⟨m, by omega, hm2⟩
      · exact ⟨n + 1, Nat.lt_succ_self n, by rw [hstep]; exact hpr⟩

/-- Termination: when both chunk sizes divide the number of elements and the number of
slots, and together do not exceed the number of slots, every fair interleaving of the two
threads reaches the state in which both have finished. -/
theorem fair_run_finishes (refArr : List Int) (prior : RingBuffer) (cap p c : Nat)
    (hcap : 1 ≤ cap) (hp : 0 < p) (hc : 0 < c)
    (hpN : p ∣ refArr.length) (hcN : c ∣ refArr.length)
    (hpM : p ∣ cap + 1) (hcM : c ∣ cap + 1) (hpc : p + c ≤ cap + 1)
    (sched : Nat → Bool) (hfair : Fair sched) :
    ∃ n, finished (exec refArr p c (Threaded_Iteration_start prior cap refArr) sched n) := by
  have aux : ∀ k n,
      remaining refArr (exec refArr p c (Threaded_Iteration_start prior cap refArr) sched n) ≤ k →
      ∃ m, finished (exec refArr p c (Threaded_Iteration_start prior cap refArr) sched m) := by
    intro k
    induction k with
    | zero =>
      intro n hk
      by_cases hfin : finished
          (exec refArr p c (Threaded_Iteration_start prior cap refArr) sched n)
      · exact ⟨n, hfin⟩
      · exfalso
        have hinv := Inv.exec refArr prior cap p c hcap hpN sched n
        rcases some_thread_enabled refArr cap p c _ hp hc hpN hcN hpM hcM hpc hinv hfin
          with hen | hen <;> omega
    | succ k ih =>
      intro n hk
      by_cases hfin : finished
          (exec refArr p c (Threaded_Iteration_start prior cap refArr) sched n)
      · exact ⟨n, hfin⟩
      · have hinv := Inv.exec refArr prior cap p c hcap hpN sched n
        rcases some_thread_enabled refArr cap p c _ hp hc hpN hcN hpM hcM hpc hinv hfin
          with hen | hen
        · obtain ⟨m, hm1, hm2⟩ := (hfair n).1
          have hsm : sched (n + (m - n)) = true := by
            have e : n + (m - n) = m := by omega
            rw [e]; exact hm2
          obtain ⟨m', -, hlt⟩ := progress_when_scheduled refArr prior cap p c hcap hp hc hpN
            sched true (m - n) n hsm (fun _ => hen) (fun hc' => by cases hc')
          exact ih m' (by omega)
        · obtain ⟨m, hm1, hm2⟩ := (hfair n).2
          have hsm : sched (n + (m - n)) = false := by
            have e : n + (m - n) = m := by omega
            rw [e]; exact hm2
          obtain ⟨m', -, hlt⟩ := progress_when_scheduled refArr prior cap p c hcap hp hc hpN
            sched false (m - n) n hsm (fun hc' => by cases hc') (fun _ => hen)
          exact ih m' (by omega)
  exact aux _ 0 (le_refl _)

theorem alternate_fair : Fair alternate := by
  intro n
  refine ⟨⟨2 * n, by omega, ?_⟩, ⟨2 * n + 1, by omega, ?_⟩⟩
  · simp [alternate]
  · simp [alternate, Nat.add_mod]

/-- C1: in every interleaving of `Producer(p)` and `Consumer(c)` on a buffer resized to
`buffer_size ≥ 1`, for every reference array whose length `p` divides, at every moment
the entries the consumer has dequeued into `measArr` are exactly the first entries of
`refArr`, in order, and no more than were enqueued; once both threads have finished,
`measArr = refArr`. When moreover both chunk sizes divide the `buffer_size + 1` slots (as
1, 2, 4 do for the test's `buffer_size = 15`) and the length, every fair interleaving does
reach the state where both threads have finished. -/
theorem Threaded_Iteration_fifo (refArr : List Int) (prior : RingBuffer)
    (buffer_size prod_nr_items cons_nr_items : Nat) (sched : Nat → Bool)
    (hsize : 1 ≤ buffer_size) (hprod : refArr.length % prod_nr_items = 0) :
    (∀ n,
      (exec refArr prod_nr_items cons_nr_items
          (Threaded_Iteration_start prior buffer_size refArr) sched n).cons.i
        ≤ (exec refArr prod_nr_items cons_nr_items
          (Threaded_Iteration_start prior buffer_size refArr) sched n).prod.i ∧
      (exec refArr prod_nr_items cons_nr_items
          (Threaded_Iteration_start prior buffer_size refArr) sched n).prod.i
        ≤ refArr.length ∧
      (∀ x, x < (exec refArr prod_nr_items cons_nr_items
          (Threaded_Iteration_start prior buffer_size refArr) sched n).cons.i →
        (exec refArr prod_nr_items cons_nr_items
          (Threaded_Iteration_start prior buffer_size refArr) sched n).measArr.getD x 0
          = refArr.getD x 0) ∧
      (finished (exec refArr prod_nr_items cons_nr_items
          (Threaded_Iteration_start prior buffer_size refArr) sched n) →
        (exec refArr prod_nr_items cons_nr_items
          (Threaded_Iteration_start prior buffer_size refArr) sched n).measArr = refArr)) ∧
    (0 < prod_nr_items → 0 < cons_nr_items → refArr.length % cons_nr_items = 0 →
      (buffer_size + 1) % prod_nr_items = 0 → (buffer_size + 1) % cons_nr_items = 0 →
      prod_nr_items + cons_nr_items ≤ buffer_size + 1 → Fair sched →
      ∃ n, finished (exec refArr prod_nr_items cons_nr_items
        (Threaded_Iteration_start prior buffer_size refArr) sched n)) := by
  have hpN : prod_nr_items ∣ refArr.length := Nat.dvd_of_mod_eq_zero hprod
  constructor
  · intro n
    have hinv := Inv.exec refArr prior buffer_size prod_nr_items cons_nr_items hsize hpN sched n
    refine ⟨hinv.read_le_written, hinv.written_le_len, hinv.measured, ?_⟩
    intro hfin
    apply list_eq_of_getD _ _ hinv.meas_len
    intro x hx
    exact hinv.measured x (lt_of_lt_of_le hx (hinv.cons_done hfin.2))
  · intro hp hc hcN hpM hcM hpc hfair
    exact fair_run_finishes refArr prior buffer_size prod_nr_items cons_nr_items hsize hp hc
      hpN (Nat.dvd_of_mod_eq_zero hcN) (Nat.dvd_of_mod_eq_zero hpM)
      (Nat.dvd_of_mod_eq_zero hcM) hpc sched hfair

theorem Threaded_Iteration_fifo_witness :
    (exec sampleRef 2 1 (Threaded_Iteration_start RingBuffer.unused 15 sampleRef)
      alternate 40).measArr = sampleRef ∧
    ∃ n, finished (exec sampleRef 2 1
      (Threaded_Iteration_start RingBuffer.unused 15 sampleRef) alternate n) :=
  have h := Threaded_Iteration_fifo sampleRef RingBuffer.unused 15 2 1 alternate
    (by decide) (by decide)
  ⟨(h.1 40).2.2.2 (by decide),
    h.2 (by decide) (by decide) (by decide) (by decide) (by decide) (by decide)
      alternate_fair⟩

end ThreadingTest

